import Mathlib

/-!
Verification of the incremental LLM translation pipeline (src/pipeline.py).

Texts and keys are embedded as `List Char` (Python `str`).  Python dicts of
strings are embedded as follows: the source catalog (`source_data`, a JSON
object, so its keys are unique) as an association list in insertion order;
the target store (`existing_fr`) as a lookup function `List Char → Option
(List Char)` (`None` = key absent, matching Python `dict.get`), updated
functionally where the script assigns; the per-string placeholder map
(`mapping`, whose keys `<VAR1>`, `<VAR2>`, … are pairwise distinct) as an
association list in insertion order.  The external LLM call `llm_translate`
is an opaque text-to-text collaborator and is embedded as a function
parameter; file I/O (loading `en.json`, writing `fr.json`) is represented by
the function's argument and result: the run returns `Except e store`, where
`.ok` is the merged store that the script serializes and `.error` is the
`ValueError` the script raises (which aborts the run before the output file
is written).
-/

namespace Pipeline

/-- Python `str` as a list of characters. -/
abbrev Text := List Char

/-- Recursion worker for `replaceAll`.  The fuel only bounds the recursion
depth so that the definition is structurally recursive (and hence reduces in
the kernel); any fuel of at least the string's length gives the same result
(`replaceAllF_fuel`). -/
def replaceAllF (old new : Text) : Nat → Text → Text
  | _, [] => []
  | 0, s => s
  | fuel + 1, c :: rest =>
    if old ≠ [] ∧ old.isPrefixOf (c :: rest) then
      new ++ replaceAllF old new fuel ((c :: rest).drop old.length)
    else
      c :: replaceAllF old new fuel rest

/-- `text.replace(old, new)` for nonempty `old`: replaces the leftmost
non-overlapping occurrences of `old` by `new`, scanning left to right.
(The `old ≠ []` guard only rules out the degenerate empty pattern, which the
wrapper `pyReplace` handles separately; it does not change the behaviour on
the nonempty patterns the pipeline uses.) -/
def replaceAll (old new : Text) (s : Text) : Text :=
  replaceAllF old new s.length s

/-- Python `text.replace(old, new)`.  For an empty `old`, Python inserts
`new` before every character and at the end; otherwise `replaceAll`. -/
def pyReplace (s old new : Text) : Text :=
  if old = [] then new ++ s.flatMap (fun c => c :: new)
  else replaceAll old new s

/-- One attempted match of the placeholder regex `\{[^}]+\}` at the head of
the string: a `{`, then a nonempty greedy run of non-`}` characters, then a
`}`.  Returns the matched substring and the remainder after it. -/
def isPlaceholderAt : Text → Option (Text × Text)
  | c :: rest =>
    if c = '{' then
      let content := rest.takeWhile (fun d => d ≠ '}')
      if content ≠ [] ∧ (rest.drop content.length).head? = some '}' then
        some ('{' :: content ++ ['}'], (rest.drop content.length).tail)
      else none
    else none
  | [] => none

/-- Recursion worker for `findallPH`, fueled like `replaceAllF`. -/
def findallPHF : Nat → Text → List Text
  | _, [] => []
  | 0, _ => []
  | fuel + 1, c :: rest =>
    match isPlaceholderAt (c :: rest) with
    | some (tok, after) => tok :: findallPHF fuel after
    | none => findallPHF fuel rest

/-- `re.findall(r"\{[^}]+\}", text)`: scan left to right, at each position
try the placeholder pattern; on a match record it and continue after it,
otherwise move one character forward. -/
def findallPH (s : Text) : List Text :=
  findallPHF s.length s

/-- The decimal digit character of `d ∈ [0, 9]`. -/
def digitChar (d : Nat) : Char := Char.ofNat (48 + d)

/-- Recursion worker for `natDigits`: any fuel of at least `n` gives the
decimal digits of `n`. -/
def natDigitsF : Nat → Nat → Text
  | 0, n => [digitChar n]
  | fuel + 1, n =>
    if n < 10 then [digitChar n]
    else natDigitsF fuel (n / 10) ++ [digitChar (n % 10)]

/-- The decimal digits of `n`, most significant first (Python `f"{n}"`). -/
def natDigits (n : Nat) : Text :=
  natDigitsF n n

/-- The synthetic token `f"<VAR{index}>"`. -/
def varToken (i : Nat) : Text := '<' :: 'V' :: 'A' :: 'R' :: natDigits i ++ ['>']

/-- The code-point ranges of the Unicode decimal digits (general category
`Nd`, Unicode 14.0 as shipped with CPython 3.11): exactly the characters
matched by `\d` in a Python `str` pattern (`Py_UNICODE_ISDECIMAL`). -/
def ndRanges : List (Nat × Nat) :=
  [(48, 57), (1632, 1641), (1776, 1785), (1984, 1993), (2406, 2415),
   (2534, 2543), (2662, 2671), (2790, 2799), (2918, 2927), (3046, 3055),
   (3174, 3183), (3302, 3311), (3430, 3439), (3558, 3567), (3664, 3673),
   (3792, 3801), (3872, 3881), (4160, 4169), (4240, 4249), (6112, 6121),
   (6160, 6169), (6470, 6479), (6608, 6617), (6784, 6793), (6800, 6809),
   (6992, 7001), (7088, 7097), (7232, 7241), (7248, 7257), (42528, 42537),
   (43216, 43225), (43264, 43273), (43472, 43481), (43504, 43513),
   (43600, 43609), (44016, 44025), (65296, 65305), (66720, 66729),
   (68912, 68921), (69734, 69743), (69872, 69881), (69942, 69951),
   (70096, 70105), (70384, 70393), (70736, 70745), (70864, 70873),
   (71248, 71257), (71360, 71369), (71472, 71481), (71904, 71913),
   (72016, 72025), (72784, 72793), (73040, 73049), (73120, 73129),
   (92768, 92777), (92864, 92873), (93008, 93017), (120782, 120831),
   (123200, 123209), (123632, 123641), (125264, 125273), (130032, 130041)]

/-- Python's `\d` character class: membership in a decimal-digit range. -/
def pyIsDigit (c : Char) : Bool :=
  ndRanges.any fun r => decide (r.1 ≤ c.toNat) && decide (c.toNat ≤ r.2)

/-- One attempted match of the token regex `<VAR\d+>` at the head of the
string: `<VAR`, a nonempty greedy run of digits, then `>`. -/
def isVarTokenAt : Text → Option (Text × Text)
  | c :: rest =>
    if c = '<' ∧ rest.take 3 = ['V', 'A', 'R'] then
      let after := rest.drop 3
      let ds := after.takeWhile (fun d => pyIsDigit d)
      if ds ≠ [] ∧ (after.drop ds.length).head? = some '>' then
        some ('<' :: 'V' :: 'A' :: 'R' :: ds ++ ['>'], (after.drop ds.length).tail)
      else none
    else none
  | [] => none

/-- Recursion worker for `findallVar`, fueled like `replaceAllF`. -/
def findallVarF : Nat → Text → List Text
  | _, [] => []
  | 0, _ => []
  | fuel + 1, c :: rest =>
    match isVarTokenAt (c :: rest) with
    | some (tok, after) => tok :: findallVarF fuel after
    | none => findallVarF fuel rest

/-- `re.findall(r"<VAR\d+>", text)`, same scanning discipline as
`findallPH`. -/
def findallVar (s : Text) : List Text :=
  findallVarF s.length s

/-- The loop of `mask_placeholders`: `for index, placeholder in
enumerate(placeholders, start=1): token = f"<VAR{index}>";
mapping[token] = placeholder; masked_text = masked_text.replace(placeholder,
token)`.  The mapping's keys `<VAR1>, <VAR2>, …` are pairwise distinct, so
the dict is the association list in insertion order. -/
def maskLoop : List Text → Nat → Text → Text × List (Text × Text)
  | [], _, masked => (masked, [])
  | p :: ps, i, masked =>
    let r := maskLoop ps (i + 1) (pyReplace masked p (varToken i))
    (r.1, (varToken i, p) :: r.2)

/-- `mask_placeholders(text)`: find all `\{[^}]+\}` matches, then replace
each, in match order, by the fresh token `<VAR{index}>` (index from 1),
recording token → placeholder. -/
def mask_placeholders (text : Text) : Text × List (Text × Text) :=
  maskLoop (findallPH text) 1 text

/-- `restore_placeholders(text, mapping)`: for each `(token, original)` of
the mapping in insertion order, `text = text.replace(token, original)`. -/
def restore_placeholders (text : Text) (mapping : List (Text × Text)) : Text :=
  mapping.foldl (fun acc pr => pyReplace acc pr.1 pr.2) text

/-- `extract_placeholders(text)`: `set(re.findall(r"<VAR\d+>", text))`. -/
def extract_placeholders (text : Text) : Finset Text :=
  (findallVar text).toFinset

/-- `apply_glossary(text, glossary)`: for each `(source, target)` of the
glossary dict in insertion order, `text = text.replace(source, target)`. -/
def apply_glossary (text : Text) (glossary : List (Text × Text)) : Text :=
  glossary.foldl (fun acc pr => pyReplace acc pr.1 pr.2) text

/-- The target store `existing_fr`: key → value, `none` when absent. -/
abbrev Store := Text → Option Text

/-- The empty store (first run: `fr.json` does not exist). -/
def emptyStore : Store := fun _ => none

/-- A Python dict assignment `d[k] = v`. -/
def update (st : Store) (k v : Text) : Store :=
  fun x => if x = k then some v else st x

/-- The snapshot key `f"__source__:{key}"`. -/
def sourceMarker (key : Text) : Text := "__source__:".data ++ key

/-- `get_keys_to_translate(source_en, existing_fr)`: a key needs translation
if it does not exist in `existing_fr`, or `existing_fr.get(f"__source__:{key}")`
differs from the current English text.  The catalog's keys are unique (it is
a JSON object), so the dict built by the Python loop is this filtered
association list. -/
def get_keys_to_translate (source_en : List (Text × Text)) (existing_fr : Store) :
    List (Text × Text) :=
  source_en.filter fun p =>
    decide (existing_fr p.1 = none ∨ existing_fr (sourceMarker p.1) ≠ some p.2)

/-- The message of the `ValueError` raised on a QA failure: Python
`f"❌ Placeholder mismatch in key '{key}'"` (the two `Char.ofNat 39` are
the quotes around the key). -/
def errMsg (key : Text) : Text :=
  [Char.ofNat 8218, Char.ofNat 249, Char.ofNat 229, ' ']
    ++ "Placeholder mismatch in key ".data
    ++ [Char.ofNat 39] ++ key ++ [Char.ofNat 39]

/-- The body of the per-key loop of section 8 of the script: mask the source
text, translate the masked text, apply the glossary, compare the extracted
token sets (raising `ValueError` on mismatch), restore the placeholders, and
write the translation and the source snapshot into the store. -/
def processKey (glossary : List (Text × Text)) (tr : Text → Text)
    (st : Store) (key text : Text) : Except Text Store :=
  let masked := mask_placeholders text
  let masked_translation := apply_glossary (tr masked.1) glossary
  let src_vars := extract_placeholders masked.1
  let tgt_vars := extract_placeholders masked_translation
  if src_vars ≠ tgt_vars then
    .error (errMsg key)
  else
    let final_text := restore_placeholders masked_translation masked.2
    .ok (update (update st key final_text) (sourceMarker key) text)

/-- `for key, en_text in keys_to_translate.items(): …` — sequential, the
first raised `ValueError` aborts the whole run. -/
def runKeys (glossary : List (Text × Text)) (tr : Text → Text) :
    Store → List (Text × Text) → Except Text Store
  | st, [] => .ok st
  | st, (k, t) :: rest =>
    match processKey glossary tr st k t with
    | .error e => .error e
    | .ok st' => runKeys glossary tr st' rest

/-- The whole run: compute the delta, translate each dirty key in catalog
order, and (on success) return the merged store that the script writes to
`fr.json`.  `.error` is the uncaught `ValueError`: the run aborts and no
output file is written. -/
def runPipeline (catalog : List (Text × Text)) (store : Store)
    (glossary : List (Text × Text)) (tr : Text → Text) : Except Text Store :=
  runKeys glossary tr store (get_keys_to_translate catalog store)

/-- The QA predicate of the per-key loop: the token set of the masked source
differs from the token set of the glossary-postprocessed masked translation. -/
def qaFails (glossary : List (Text × Text)) (tr : Text → Text) (t : Text) : Prop :=
  extract_placeholders (mask_placeholders t).1 ≠
    extract_placeholders (apply_glossary (tr (mask_placeholders t).1) glossary)

instance (glossary : List (Text × Text)) (tr : Text → Text) (t : Text) :
    Decidable (qaFails glossary tr t) := by
  unfold qaFails
  infer_instance

/-- The text merged for a key that passed QA. -/
def finalText (glossary : List (Text × Text)) (tr : Text → Text) (t : Text) : Text :=
  restore_placeholders (apply_glossary (tr (mask_placeholders t).1) glossary)
    (mask_placeholders t).2

/-- `haystack` has `needle` as a contiguous substring. -/
def hasSub (haystack needle : Text) : Bool :=
  (List.range (haystack.length + 1)).any fun i => needle.isPrefixOf (haystack.drop i)

/-- The characters that can occur in a `<VAR\d+>` token (`\d` being any
Unicode decimal digit, as in Python). -/
def isTokChar (c : Char) : Bool :=
  decide (c = '<' ∨ c = '>' ∨ c = 'V' ∨ c = 'A' ∨ c = 'R' ∨ pyIsDigit c = true)

/-- The decimal value of a digit string (left inverse of `natDigits`, used
only to prove `natDigits` injective). -/
def digitsVal (l : Text) : Nat :=
  l.foldl (fun a c => 10 * a + (c.toNat - 48)) 0

/-! Proof scaffolding for the placeholder round-trip: an intermediate state
of the masking/unmasking loops is viewed as a mixed list of plain characters
and whole `<VARk>` tokens.  `flattenSeg` recovers the concrete string;
`maskItems`/`substTok` are the segment-level counterparts of one
`replace(placeholder, token)` / `replace(token, original)` step. -/

/-- One segment of a partially masked string: a plain character or a whole
`<VARk>` token. -/
inductive Seg where
  | chr (c : Char)
  | tok (k : Nat)
deriving DecidableEq

/-- The concrete string a segment list denotes. -/
def flattenSeg : List Seg → Text
  | [] => []
  | .chr c :: rest => c :: flattenSeg rest
  | .tok k :: rest => varToken k ++ flattenSeg rest

/-- The string a segment list denotes once every token `k` is replaced by
`orig k`. -/
def expandSeg (orig : Nat → Text) : List Seg → Text
  | [] => []
  | .chr c :: rest => c :: expandSeg orig rest
  | .tok k :: rest => orig k ++ expandSeg orig rest

/-- Segment-level replacement of the whole token `k` by the characters of
`q` (the counterpart of `replace(token, original)`). -/
def substTok (k : Nat) (q : Text) : List Seg → List Seg
  | [] => []
  | .tok j :: rest =>
    (if j = k then q.map Seg.chr else [Seg.tok j]) ++ substTok k q rest
  | .chr c :: rest => Seg.chr c :: substTok k q rest

/-- Segment-level replacement of every character-run equal to `p` by the
token `i` (the counterpart of `replace(placeholder, token)`). -/
def maskItems (p : Text) (i : Nat) : List Seg → List Seg
  | [] => []
  | s :: rest =>
    if p ≠ [] ∧ (p.map Seg.chr).isPrefixOf (s :: rest) then
      Seg.tok i :: maskItems p i ((s :: rest).drop p.length)
    else
      s :: maskItems p i rest
termination_by ms => ms.length
decreasing_by
  · rename_i h
    simp only [List.length_drop, List.length_cons]
    have h1 : 1 ≤ p.length := List.length_pos.mpr h.1
    omega
  · simp

/-- The segment-level counterpart of the whole masking loop. -/
def maskFold : List Text → Nat → List Seg → List Seg
  | [], _, ms => ms
  | p :: ps, i, ms => maskFold ps (i + 1) (maskItems p i ms)

/-- Every plain character of the segment list is outside `{'<', '>'}` (true
of every state arising from masking an angle-free text). -/
def goodSeg (ms : List Seg) : Prop :=
  ∀ c : Char, Seg.chr c ∈ ms → c ≠ '<' ∧ c ≠ '>'

/-- The token indices of a segment list, in order. -/
def segToks : List Seg → List Nat
  | [] => []
  | .tok k :: rest => k :: segToks rest
  | .chr _ :: rest => segToks rest

/-- `p` occurs in `s` as a contiguous substring (at some position `i`). -/
def occursIn (p s : Text) : Prop :=
  ∃ i, p.isPrefixOf (s.drop i) = true

/-- A well-formed placeholder for the overlap analysis: an opening brace, a
content free of braces, a closing brace.  Every `findallPH` match has
brace-free content on the right (the regex stops at the first `}`); the
content being free of `{` is the extra hypothesis of the exact-count
claim. -/
def wfPlaceholder (p : Text) : Prop :=
  ∃ x, p = '{' :: x ++ ['}'] ∧ (∀ c ∈ x, c ≠ '{') ∧ (∀ c ∈ x, c ≠ '}')

end Pipeline

namespace Pipeline

/-! ### Unfolding equations for the fueled recursions -/

theorem isPlaceholderAt_shrinks {s tok rest : Text}
    (h : isPlaceholderAt s = some (tok, rest)) : rest.length < s.length := by
  match s with
  | [] => simp [isPlaceholderAt] at h
  | c :: r =>
    simp only [isPlaceholderAt] at h
    split at h
    · split at h
      · simp only [Option.some.injEq, Prod.mk.injEq] at h
        have h2 := h.2
        subst h2
        simp only [List.length_tail, List.length_drop, List.length_cons]
        omega
      · exact absurd h (by simp)
    · exact absurd h (by simp)

theorem isVarTokenAt_shrinks {s tok rest : Text}
    (h : isVarTokenAt s = some (tok, rest)) : rest.length < s.length := by
  match s with
  | [] => simp [isVarTokenAt] at h
  | c :: r =>
    simp only [isVarTokenAt] at h
    split at h
    · split at h
      · simp only [Option.some.injEq, Prod.mk.injEq] at h
        have h2 := h.2
        subst h2
        simp only [List.length_tail, List.length_drop, List.length_cons]
        omega
      · exact absurd h (by simp)
    · exact absurd h (by simp)

theorem replaceAllF_fuel (old new : Text) :
    ∀ (f₁ : Nat) (s : Text) (f₂ : Nat), s.length ≤ f₁ → s.length ≤ f₂ →
      replaceAllF old new f₁ s = replaceAllF old new f₂ s := by
  intro f₁
  induction f₁ with
  | zero =>
    intro s f₂ h1 _
    have hs : s = [] := List.eq_nil_of_length_eq_zero (Nat.le_zero.mp h1)
    subst hs
    cases f₂ <;> simp [replaceAllF]
  | succ f ih =>
    intro s f₂ h1 h2
    match s with
    | [] => cases f₂ <;> simp [replaceAllF]
    | c :: rest =>
      match f₂ with
      | 0 => simp at h2
      | g + 1 =>
        simp only [replaceAllF]
        by_cases hc : old ≠ [] ∧ old.isPrefixOf (c :: rest)
        · rw [if_pos hc, if_pos hc]
          have hlen : ((c :: rest).drop old.length).length ≤ f := by
            simp only [List.length_drop, List.length_cons]
            have : 1 ≤ old.length := List.length_pos.mpr hc.1
            simp only [List.length_cons] at h1
            omega
          have hlen2 : ((c :: rest).drop old.length).length ≤ g := by
            simp only [List.length_drop, List.length_cons]
            have : 1 ≤ old.length := List.length_pos.mpr hc.1
            simp only [List.length_cons] at h2
            omega
          rw [ih _ g hlen hlen2]
        · rw [if_neg hc, if_neg hc]
          simp only [List.length_cons] at h1 h2
          rw [ih rest g (by omega) (by omega)]

theorem replaceAll_nil (old new : Text) : replaceAll old new [] = [] := rfl

theorem replaceAll_cons (old new : Text) (c : Char) (rest : Text) :
    replaceAll old new (c :: rest) =
      if old ≠ [] ∧ old.isPrefixOf (c :: rest) then
        new ++ replaceAll old new ((c :: rest).drop old.length)
      else
        c :: replaceAll old new rest := by
  unfold replaceAll
  simp only [List.length_cons, replaceAllF]
  by_cases hc : old ≠ [] ∧ old.isPrefixOf (c :: rest)
  · rw [if_pos hc, if_pos hc]
    have : 1 ≤ old.length := List.length_pos.mpr hc.1
    rw [replaceAllF_fuel old new rest.length _ _ (by simp [List.length_drop]; omega)
      (le_refl _)]
  · rw [if_neg hc, if_neg hc]

theorem findallPHF_fuel :
    ∀ (f₁ : Nat) (s : Text) (f₂ : Nat), s.length ≤ f₁ → s.length ≤ f₂ →
      findallPHF f₁ s = findallPHF f₂ s := by
  intro f₁
  induction f₁ with
  | zero =>
    intro s f₂ h1 _
    have hs : s = [] := List.eq_nil_of_length_eq_zero (Nat.le_zero.mp h1)
    subst hs
    cases f₂ <;> simp [findallPHF]
  | succ f ih =>
    intro s f₂ h1 h2
    match s with
    | [] => cases f₂ <;> simp [findallPHF]
    | c :: rest =>
      match f₂ with
      | 0 => simp at h2
      | g + 1 =>
        simp only [findallPHF]
        cases h : isPlaceholderAt (c :: rest) with
        | some pr =>
          obtain ⟨tok, after⟩ := pr
          have := isPlaceholderAt_shrinks h
          simp only [List.length_cons] at this h1 h2
          dsimp only
          rw [ih after g (by omega) (by omega)]
        | none =>
          simp only [List.length_cons] at h1 h2
          dsimp only
          rw [ih rest g (by omega) (by omega)]

theorem findallPH_nil : findallPH [] = [] := rfl

theorem findallPH_cons (c : Char) (rest : Text) :
    findallPH (c :: rest) =
      match isPlaceholderAt (c :: rest) with
      | some (tok, after) => tok :: findallPH after
      | none => findallPH rest := by
  unfold findallPH
  simp only [List.length_cons, findallPHF]
  cases h : isPlaceholderAt (c :: rest) with
  | some pr =>
    obtain ⟨tok, after⟩ := pr
    have := isPlaceholderAt_shrinks h
    simp only [List.length_cons] at this
    dsimp only
    rw [findallPHF_fuel rest.length after after.length (by omega) (le_refl _)]
  | none => dsimp only

theorem findallVarF_fuel :
    ∀ (f₁ : Nat) (s : Text) (f₂ : Nat), s.length ≤ f₁ → s.length ≤ f₂ →
      findallVarF f₁ s = findallVarF f₂ s := by
  intro f₁
  induction f₁ with
  | zero =>
    intro s f₂ h1 _
    have hs : s = [] := List.eq_nil_of_length_eq_zero (Nat.le_zero.mp h1)
    subst hs
    cases f₂ <;> simp [findallVarF]
  | succ f ih =>
    intro s f₂ h1 h2
    match s with
    | [] => cases f₂ <;> simp [findallVarF]
    | c :: rest =>
      match f₂ with
      | 0 => simp at h2
      | g + 1 =>
        simp only [findallVarF]
        cases h : isVarTokenAt (c :: rest) with
        | some pr =>
          obtain ⟨tok, after⟩ := pr
          have := isVarTokenAt_shrinks h
          simp only [List.length_cons] at this h1 h2
          dsimp only
          rw [ih after g (by omega) (by omega)]
        | none =>
          simp only [List.length_cons] at h1 h2
          dsimp only
          rw [ih rest g (by omega) (by omega)]

theorem findallVar_nil : findallVar [] = [] := rfl

theorem findallVar_cons (c : Char) (rest : Text) :
    findallVar (c :: rest) =
      match isVarTokenAt (c :: rest) with
      | some (tok, after) => tok :: findallVar after
      | none => findallVar rest := by
  unfold findallVar
  simp only [List.length_cons, findallVarF]
  cases h : isVarTokenAt (c :: rest) with
  | some pr =>
    obtain ⟨tok, after⟩ := pr
    have := isVarTokenAt_shrinks h
    simp only [List.length_cons] at this
    dsimp only
    rw [findallVarF_fuel rest.length after after.length (by omega) (le_refl _)]
  | none => dsimp only

theorem natDigitsF_fuel :
    ∀ (f₁ n f₂ : Nat), n ≤ f₁ → n ≤ f₂ → natDigitsF f₁ n = natDigitsF f₂ n := by
  intro f₁
  induction f₁ with
  | zero =>
    intro n f₂ h1 _
    have hn : n = 0 := Nat.le_zero.mp h1
    subst hn
    cases f₂ <;> simp [natDigitsF]
  | succ f ih =>
    intro n f₂ h1 h2
    match f₂ with
    | 0 =>
      have hn : n = 0 := Nat.le_zero.mp h2
      subst hn
      simp [natDigitsF]
    | g + 1 =>
      simp only [natDigitsF]
      by_cases hn : n < 10
      · rw [if_pos hn, if_pos hn]
      · rw [if_neg hn, if_neg hn]
        have hdiv : n / 10 ≤ f := by
          have : n / 10 < n := Nat.div_lt_self (by omega) (by omega)
          omega
        have hdiv2 : n / 10 ≤ g := by
          have : n / 10 < n := Nat.div_lt_self (by omega) (by omega)
          omega
        rw [ih (n / 10) g hdiv hdiv2]

theorem natDigits_eq (n : Nat) :
    natDigits n =
      if n < 10 then [digitChar n]
      else natDigits (n / 10) ++ [digitChar (n % 10)] := by
  unfold natDigits
  match n with
  | 0 => simp [natDigitsF]
  | m + 1 =>
    simp only [natDigitsF]
    by_cases hn : m + 1 < 10
    · rw [if_pos hn, if_pos hn]
    · rw [if_neg hn, if_neg hn]
      have : (m + 1) / 10 < m + 1 := Nat.div_lt_self (by omega) (by omega)
      rw [natDigitsF_fuel m ((m + 1) / 10) ((m + 1) / 10) (by omega) (le_refl _)]

/-! ### Basic facts about keys, markers and the store -/

/-- A key that does not start with the reserved snapshot prefix is never a
snapshot key. -/
theorem ne_sourceMarker_of_not_reserved {k : Text}
    (h : ("__source__:".data).isPrefixOf k = false) (k' : Text) :
    k ≠ sourceMarker k' := by
  intro hc
  have hp : "__source__:".data <+: k := ⟨k', hc.symm⟩
  rw [← List.isPrefixOf_iff_prefix] at hp
  simp [hp] at h

theorem sourceMarker_injective {k k' : Text}
    (h : sourceMarker k = sourceMarker k') : k = k' :=
  List.append_cancel_left h

theorem update_same (st : Store) (k v : Text) : update st k v k = some v := by
  simp [update]

theorem update_other (st : Store) {k x : Text} (v : Text) (h : x ≠ k) :
    update st k v x = st x := by
  simp [update, h]

theorem processKey_eq_error {glossary tr t} (st : Store) (k : Text)
    (h : qaFails glossary tr t) :
    processKey glossary tr st k t = .error (errMsg k) := by
  have h' : extract_placeholders (mask_placeholders t).1 ≠
      extract_placeholders (apply_glossary (tr (mask_placeholders t).1) glossary) := h
  simp only [processKey]
  rw [if_pos h']

theorem processKey_eq_ok {glossary tr t} (st : Store) (k : Text)
    (h : ¬ qaFails glossary tr t) :
    processKey glossary tr st k t =
      .ok (update (update st k (finalText glossary tr t)) (sourceMarker k) t) := by
  have h' : ¬ extract_placeholders (mask_placeholders t).1 ≠
      extract_placeholders (apply_glossary (tr (mask_placeholders t).1) glossary) := h
  simp only [processKey]
  rw [if_neg h']
  rfl

/-- Frame property of the per-key loop: a store key that is neither a
processed key nor the snapshot key of a processed key keeps its prior
value. -/
theorem runKeys_frame {glossary : List (Text × Text)} {tr : Text → Text} :
    ∀ (L : List (Text × Text)) (st st' : Store),
      runKeys glossary tr st L = .ok st' →
      ∀ x : Text, (∀ p ∈ L, x ≠ p.1 ∧ x ≠ sourceMarker p.1) → st' x = st x := by
  intro L
  induction L with
  | nil =>
    intro st st' h x _
    simp only [runKeys] at h
    cases h
    rfl
  | cons p rest ih =>
    intro st st' h x hx
    obtain ⟨k, t⟩ := p
    simp only [runKeys] at h
    by_cases hq : qaFails glossary tr t
    · rw [processKey_eq_error st k hq] at h
      exact absurd h (by simp)
    · rw [processKey_eq_ok st k hq] at h
      have hx0 := hx (k, t) (by simp)
      have := ih _ _ h x (fun q hq' => hx q (by simp [hq']))
      rw [this, update_other _ _ hx0.2, update_other _ _ hx0.1]

/-- Entries of two distinct positions of a key-unique association list have
distinct keys. -/
theorem eq_of_mem_of_nodup_keys :
    ∀ {l : List (Text × Text)}, (l.map Prod.fst).Nodup →
      ∀ {p q : Text × Text}, p ∈ l → q ∈ l → p.1 = q.1 → p = q := by
  intro l
  induction l with
  | nil => intro _ p q hp; simp at hp
  | cons a rest ih =>
    intro hnd p q hp hq hpq
    simp only [List.map_cons, List.nodup_cons] at hnd
    rcases List.mem_cons.mp hp with hp1 | hp1 <;>
      rcases List.mem_cons.mp hq with hq1 | hq1
    · rw [hp1, hq1]
    · exfalso
      apply hnd.1
      have : a.1 = q.1 := by rw [← hp1, hpq]
      rw [this]
      exact List.mem_map_of_mem Prod.fst hq1
    · exfalso
      apply hnd.1
      have : a.1 = p.1 := by rw [← hq1, ← hpq]
      rw [this]
      exact List.mem_map_of_mem Prod.fst hp1
    · exact ih hnd.2 hp1 hq1 hpq

/-- After a successful loop over a list of dirty entries with unique,
non-reserved keys, every entry's key holds a translation and its snapshot
key holds the entry's source text. -/
theorem runKeys_written {glossary : List (Text × Text)} {tr : Text → Text} :
    ∀ (L : List (Text × Text)) (st st' : Store),
      (L.map Prod.fst).Nodup →
      (∀ p ∈ L, ("__source__:".data).isPrefixOf p.1 = false) →
      runKeys glossary tr st L = .ok st' →
      ∀ p ∈ L, (∃ v, st' p.1 = some v) ∧ st' (sourceMarker p.1) = some p.2 := by
  intro L
  induction L with
  | nil => intro st st' _ _ _ p hp; simp at hp
  | cons a rest ih =>
    intro st st' hnd hpre h p hp
    obtain ⟨k, t⟩ := a
    simp only [runKeys] at h
    by_cases hq : qaFails glossary tr t
    · rw [processKey_eq_error st k hq] at h
      exact absurd h (by simp)
    · rw [processKey_eq_ok st k hq] at h
      simp only [List.map_cons, List.nodup_cons] at hnd
      rcases List.mem_cons.mp hp with hp1 | hp1
      · -- p is the head entry: its writes survive the rest of the loop.
        have hkpre : ("__source__:".data).isPrefixOf k = false := by
          simpa using hpre (k, t) (by simp)
        have hother : ∀ q ∈ rest, k ≠ q.1 ∧ k ≠ sourceMarker q.1 := by
          intro q hq'
          constructor
          · intro hc
            exact hnd.1 (hc ▸ List.mem_map_of_mem Prod.fst hq')
          · exact ne_sourceMarker_of_not_reserved hkpre q.1
        have hother' : ∀ q ∈ rest, sourceMarker k ≠ q.1 ∧
            sourceMarker k ≠ sourceMarker q.1 := by
          intro q hq'
          have hqpre : ("__source__:".data).isPrefixOf q.1 = false := by
            simpa using hpre q (by simp [hq'])
          constructor
          · exact fun hc => ne_sourceMarker_of_not_reserved hqpre k hc.symm
          · intro hc
            apply hnd.1
            rw [sourceMarker_injective hc]
            exact List.mem_map_of_mem Prod.fst hq'
        have h1 := runKeys_frame rest _ _ h k hother
        have h2 := runKeys_frame rest _ _ h (sourceMarker k) hother'
        rw [hp1]
        refine ⟨⟨finalText glossary tr t, ?_⟩, ?_⟩
        · rw [h1, update_other _ _ (ne_sourceMarker_of_not_reserved hkpre k),
            update_same]
        · rw [h2, update_same]
      · exact ih _ _ hnd.2 (fun q hq' => hpre q (by simp [hq'])) h p hp1

end Pipeline

namespace Pipeline

/-! ### The run aborts at the first QA failure -/

theorem runKeys_error_of_fails {glossary : List (Text × Text)} {tr : Text → Text} :
    ∀ (L : List (Text × Text)) (st : Store), (∃ p ∈ L, qaFails glossary tr p.2) →
      ∃ k', (∃ t', (k', t') ∈ L ∧ qaFails glossary tr t') ∧
        runKeys glossary tr st L = .error (errMsg k') := by
  intro L
  induction L with
  | nil => intro st h; simp at h
  | cons a rest ih =>
    intro st h
    obtain ⟨k, t⟩ := a
    by_cases hq : qaFails glossary tr t
    · refine ⟨k, ⟨t, by simp, hq⟩, ?_⟩
      simp [runKeys, processKey_eq_error st k hq]
    · have h' : ∃ p ∈ rest, qaFails glossary tr p.2 := by
        obtain ⟨p, hp, hpf⟩ := h
        rcases List.mem_cons.mp hp with hp1 | hp1
        · rw [hp1] at hpf
          exact absurd hpf hq
        · exact ⟨p, hp1, hpf⟩
      obtain ⟨k', hk', hrun⟩ :=
        ih (update (update st k (finalText glossary tr t)) (sourceMarker k) t) h'
      refine ⟨k', ?_, ?_⟩
      · obtain ⟨t', ht', htf⟩ := hk'
        exact ⟨t', by simp [ht'], htf⟩
      · simp [runKeys, processKey_eq_ok st k hq, hrun]

/-! ### Mapping structure of `mask_placeholders` -/

theorem maskLoop_mapping :
    ∀ (ps : List Text) (i : Nat) (masked : Text),
      (maskLoop ps i masked).2 = ps.mapIdx fun j p => (varToken (i + j), p) := by
  intro ps
  induction ps with
  | nil => intro i masked; simp [maskLoop]
  | cons p ps ih =>
    intro i masked
    simp only [maskLoop, ih, List.mapIdx_cons]
    have h1 : (fun (j : Nat) (q : Text) => (varToken (i + 1 + j), q)) =
        fun (j : Nat) (q : Text) => (varToken (i + (j + 1)), q) := by
      funext j q
      have : i + 1 + j = i + (j + 1) := by omega
      rw [this]
    rw [h1, Nat.add_zero]

end Pipeline

namespace Pipeline

/-! ## The claims -/

/-- C1: the delta resolver marks key `k` (with current source text `t`)
dirty iff the store has no translation entry for `k`, or the snapshot entry
`__source__:k` differs from `t`; every catalog entry whose translation is
present and whose snapshot equals the current source text is excluded. -/
theorem claim_C1 (catalog : List (Text × Text)) (store : Store) (k t : Text) :
    (k, t) ∈ get_keys_to_translate catalog store ↔
      (k, t) ∈ catalog ∧ (store k = none ∨ store (sourceMarker k) ≠ some t) := by
  simp [get_keys_to_translate, List.mem_filter]

/-- C2: the concrete scenario — one-key catalog, empty prior store, empty
glossary, stub translator returning the French masked text — produces
exactly the two-entry merged store (translation plus source snapshot). -/
theorem claim_C2 :
    runPipeline [("greeting".data, "Hello {name}, you have {count} items".data)]
      emptyStore [] (fun _ => "Bonjour <VAR1>, vous avez <VAR2> articles".data)
    = .ok (update (update emptyStore "greeting".data
          "Bonjour {name}, vous avez {count} articles".data)
        (sourceMarker "greeting".data)
        "Hello {name}, you have {count} items".data) := by
  rfl

/-- C4 counterexample: the raised error names the key but NOT the two
differing token sets — two failing runs whose expected/actual token sets
differ produce literally identical errors, so the error cannot name the
sets.  (First run: expected `{<VAR1>, <VAR2>}`, actual `{<VAR1>}`; second
run: expected `{<VAR1>}`, actual `∅`.) -/
theorem claim_C4_cex :
    (match runPipeline
        [("greeting".data, "Hello {name}, you have {count} items".data)]
        emptyStore [] (fun _ => "Bonjour <VAR1>".data) with
     | .error e => e
     | .ok _ => []) = errMsg "greeting".data
    ∧ (match runPipeline [("greeting".data, "Hi {name}".data)]
        emptyStore [] (fun _ => "Bonjour".data) with
     | .error e => e
     | .ok _ => []) = errMsg "greeting".data
    ∧ extract_placeholders
        (mask_placeholders "Hello {name}, you have {count} items".data).1
      ≠ extract_placeholders (mask_placeholders "Hi {name}".data).1 := by
  decide

/-- C4 (amended): when some dirty key's masked translation has a token set
differing from its masked source's, the run aborts with the `ValueError`
whose message names an offending key (but not the token sets); the result
is an error, so no merged store is produced and no output file is written. -/
theorem claim_C4 (catalog : List (Text × Text)) (store : Store)
    (glossary : List (Text × Text)) (tr : Text → Text)
    (h : ∃ p ∈ get_keys_to_translate catalog store, qaFails glossary tr p.2) :
    ∃ k', (∃ t', (k', t') ∈ get_keys_to_translate catalog store ∧
        qaFails glossary tr t')
      ∧ runPipeline catalog store glossary tr = .error (errMsg k') :=
  runKeys_error_of_fails _ store h

theorem claim_C4_witness :
    ∃ k', (∃ t', (k', t') ∈ get_keys_to_translate
        [("greeting".data, "Hello {name}, you have {count} items".data)] emptyStore ∧
        qaFails [] (fun _ => "Bonjour <VAR1>".data) t')
      ∧ runPipeline [("greeting".data, "Hello {name}, you have {count} items".data)]
          emptyStore [] (fun _ => "Bonjour <VAR1>".data) = .error (errMsg k') :=
  claim_C4 [("greeting".data, "Hello {name}, you have {count} items".data)]
    emptyStore [] (fun _ => "Bonjour <VAR1>".data) (by decide)

end Pipeline

namespace Pipeline

/-- C5 counterexample: idempotence fails for a catalog containing a key
that itself starts with the reserved prefix `__source__:`.  With catalog
`{"a": "Y", "__source__:a": "X"}`, an empty prior store and the identity
translator, the first run completes, but its snapshot entry for `a` is
clobbered by the translation of the key `__source__:a`, so the second run's
dirty set still contains `a`. -/
theorem claim_C5_cex :
    (match runPipeline [("a".data, "Y".data), ("__source__:a".data, "X".data)]
        emptyStore [] (fun t => t) with
     | .ok s => get_keys_to_translate
        [("a".data, "Y".data), ("__source__:a".data, "X".data)] s
     | .error _ => []) = [("a".data, "Y".data)] := by
  decide

/-- C5 (amended): for a catalog with pairwise-distinct keys none of which
starts with the reserved prefix `__source__:`, a successful run followed by
a second run on the same catalog and the merged store finds an empty dirty
set (zero keys are translated). -/
theorem claim_C5 (catalog : List (Text × Text)) (store store' : Store)
    (glossary : List (Text × Text)) (tr : Text → Text)
    (hnd : (catalog.map Prod.fst).Nodup)
    (hpre : ∀ p ∈ catalog, ("__source__:".data).isPrefixOf p.1 = false)
    (hrun : runPipeline catalog store glossary tr = .ok store') :
    get_keys_to_translate catalog store' = [] := by
  have hsub : ∀ q ∈ get_keys_to_translate catalog store, q ∈ catalog := by
    intro q hq
    exact (List.mem_filter.mp hq).1
  have hndL : ((get_keys_to_translate catalog store).map Prod.fst).Nodup :=
    hnd.sublist (List.Sublist.map Prod.fst (List.filter_sublist _))
  have hpreL : ∀ p ∈ get_keys_to_translate catalog store,
      ("__source__:".data).isPrefixOf p.1 = false :=
    fun p hp => hpre p (hsub p hp)
  unfold get_keys_to_translate
  rw [List.filter_eq_nil_iff]
  intro p hp
  simp only [decide_eq_true_eq, not_or, not_not]
  by_cases hmem : p ∈ get_keys_to_translate catalog store
  · obtain ⟨⟨v, hv⟩, hsnap⟩ := runKeys_written _ _ _ hndL hpreL hrun p hmem
    exact ⟨by simp [hv], hsnap⟩
  · have hcond : ¬ (store p.1 = none ∨ store (sourceMarker p.1) ≠ some p.2) := by
      intro hc
      exact hmem (List.mem_filter.mpr ⟨hp, by simpa using hc⟩)
    push_neg at hcond
    have hdisj : ∀ q ∈ get_keys_to_translate catalog store,
        p.1 ≠ q.1 ∧ p.1 ≠ sourceMarker q.1 := by
      intro q hq
      constructor
      · intro hc
        exact hmem (eq_of_mem_of_nodup_keys hnd hp (hsub q hq) hc ▸ hq)
      · exact ne_sourceMarker_of_not_reserved (hpre p hp) q.1
    have hdisj' : ∀ q ∈ get_keys_to_translate catalog store,
        sourceMarker p.1 ≠ q.1 ∧ sourceMarker p.1 ≠ sourceMarker q.1 := by
      intro q hq
      constructor
      · intro hc
        exact ne_sourceMarker_of_not_reserved (hpreL q hq) p.1 hc.symm
      · intro hc
        have := sourceMarker_injective hc
        exact hmem (eq_of_mem_of_nodup_keys hnd hp (hsub q hq) this ▸ hq)
    have h1 := runKeys_frame _ _ _ hrun p.1 hdisj
    have h2 := runKeys_frame _ _ _ hrun (sourceMarker p.1) hdisj'
    rw [h1, h2]
    exact ⟨hcond.1, hcond.2⟩

theorem claim_C5_witness :
    ∃ s' : Store,
      runPipeline [("a".data, "Y".data)] emptyStore [] (fun t => t) = .ok s' ∧
      get_keys_to_translate [("a".data, "Y".data)] s' = [] := by
  refine ⟨_, rfl, ?_⟩
  exact claim_C5 [("a".data, "Y".data)] emptyStore _ [] (fun t => t)
    (by decide) (by decide) rfl

/-- C6 counterexample: for `"{a} {a} {b}"` the second *distinct* placeholder
`{b}` receives `<VAR3>`, not `<VAR2>` — the counter increments per regex
match (duplicates included), not per distinct placeholder; `<VAR2>` is
assigned to the duplicate match of `{a}` and never appears in the masked
text. -/
theorem claim_C6_cex :
    (mask_placeholders "{a} {a} {b}".data).1 = "<VAR1> <VAR1> <VAR3>".data
    ∧ (mask_placeholders "{a} {a} {b}".data).2 =
        [("<VAR1>".data, "{a}".data), ("<VAR2>".data, "{a}".data),
          ("<VAR3>".data, "{b}".data)]
    ∧ hasSub (mask_placeholders "{a} {a} {b}".data).1 "<VAR2>".data = false := by
  decide

/-- C6 (amended): each regex match (in match order, duplicates included) is
assigned the token `<VARk>` where `k` is the match's 1-based position, and
all occurrences of the matched substring are replaced at the first
occurrence's turn, so identical repeated placeholders collapse to one token
— but the n-th *distinct* placeholder need not receive `<VARn>`. -/
theorem claim_C6 :
    (∀ text : Text, (mask_placeholders text).2 =
        (findallPH text).mapIdx fun j p => (varToken (1 + j), p))
    ∧ (mask_placeholders "{a} {x} {a}".data).1 = "<VAR1> <VAR2> <VAR1>".data := by
  constructor
  · intro text
    exact maskLoop_mapping (findallPH text) 1 text
  · decide

/-- C7 counterexample: the "in particular" clause fails — the snapshot key
`__source__:a` is present in the prior store and absent from the catalog
`{"a": "X"}`, yet the run (which finds `a` dirty) overwrites it. -/
theorem claim_C7_cex :
    (match runPipeline [("a".data, "X".data)]
        (update emptyStore (sourceMarker "a".data) "OLD".data) [] (fun t => t) with
     | .ok s => s (sourceMarker "a".data)
     | .error _ => none) = some "X".data
    ∧ update emptyStore (sourceMarker "a".data) "OLD".data (sourceMarker "a".data)
      = some "OLD".data
    ∧ sourceMarker "a".data ∉ [("a".data, "X".data)].map Prod.fst := by
  decide

/-- C7 (amended): every store key that is neither a dirty key of the run nor
the snapshot key `__source__:<k>` of a dirty key `k` keeps exactly its prior
value in the merged store (keys absent from the catalog are untouched
*unless* they are the snapshot entry of a dirty key). -/
theorem claim_C7 (catalog : List (Text × Text)) (store store' : Store)
    (glossary : List (Text × Text)) (tr : Text → Text)
    (hrun : runPipeline catalog store glossary tr = .ok store') (x : Text)
    (hx : ∀ p ∈ get_keys_to_translate catalog store,
      x ≠ p.1 ∧ x ≠ sourceMarker p.1) :
    store' x = store x :=
  runKeys_frame _ _ _ hrun x hx

theorem claim_C7_witness :
    ∃ s' : Store,
      runPipeline [("a".data, "X".data)] (update emptyStore "b".data "OLD".data)
        [] (fun t => t) = .ok s' ∧
      s' "b".data = some "OLD".data := by
  refine ⟨_, rfl, ?_⟩
  rw [claim_C7 [("a".data, "X".data)] (update emptyStore "b".data "OLD".data) _
    [] (fun t => t) rfl "b".data (by decide)]
  decide

/-- C9 counterexample: with catalog `{"a": "Y", "__source__:a": "X"}` (a key
with the reserved prefix) and the identity translator, after the run the
store holds a translation for the processed key `a` but its snapshot entry
`__source__:a` holds `"X"` — the translation of the other catalog key — not
the catalog's source text `"Y"` for `a`. -/
theorem claim_C9_cex :
    (match runPipeline [("a".data, "Y".data), ("__source__:a".data, "X".data)]
        emptyStore [] (fun t => t) with
     | .ok s => (s "a".data, s (sourceMarker "a".data))
     | .error _ => (none, none)) = (some "Y".data, some "X".data) := by
  decide

/-- C9 (amended): for a catalog with pairwise-distinct keys none of which
starts with the reserved prefix, after a successful run every processed
(dirty) key holds a translation together with a snapshot entry equal to the
catalog's current source text for it. -/
theorem claim_C9 (catalog : List (Text × Text)) (store store' : Store)
    (glossary : List (Text × Text)) (tr : Text → Text)
    (hnd : (catalog.map Prod.fst).Nodup)
    (hpre : ∀ p ∈ catalog, ("__source__:".data).isPrefixOf p.1 = false)
    (hrun : runPipeline catalog store glossary tr = .ok store') :
    ∀ p ∈ get_keys_to_translate catalog store,
      (∃ v, store' p.1 = some v) ∧ store' (sourceMarker p.1) = some p.2 := by
  have hsub : ∀ q ∈ get_keys_to_translate catalog store, q ∈ catalog :=
    fun q hq => (List.mem_filter.mp hq).1
  exact runKeys_written _ _ _
    (hnd.sublist (List.Sublist.map Prod.fst (List.filter_sublist _)))
    (fun p hp => hpre p (hsub p hp)) hrun

theorem claim_C9_witness :
    ∃ s' : Store,
      runPipeline [("a".data, "Y".data)] emptyStore [] (fun t => t) = .ok s' ∧
      s' (sourceMarker "a".data) = some "Y".data := by
  refine ⟨_, rfl, ?_⟩
  exact (claim_C9 [("a".data, "Y".data)] emptyStore _ [] (fun t => t)
    (by decide) (by decide) rfl ("a".data, "Y".data) (by decide)).2

/-- C10: if no catalog key starts with `__source__:`, processing a dirty key
`k` writes exactly the two entries `k` and `__source__:k` (everything else
keeps its value), and the write-sets of distinct dirty keys are pairwise
disjoint. -/
theorem claim_C10 (catalog : List (Text × Text)) (store : Store)
    (hpre : ∀ p ∈ catalog, ("__source__:".data).isPrefixOf p.1 = false) :
    (∀ (glossary : List (Text × Text)) (tr : Text → Text) (st st' : Store)
        (k t : Text), (k, t) ∈ get_keys_to_translate catalog store →
        processKey glossary tr st k t = .ok st' →
        st' k = some (finalText glossary tr t) ∧
        st' (sourceMarker k) = some t ∧
        ∀ x, x ≠ k → x ≠ sourceMarker k → st' x = st x)
    ∧ (∀ k k' t t', (k, t) ∈ get_keys_to_translate catalog store →
        (k', t') ∈ get_keys_to_translate catalog store → k ≠ k' →
        k ≠ sourceMarker k' ∧ sourceMarker k ≠ k' ∧
        sourceMarker k ≠ sourceMarker k') := by
  have hsub : ∀ q ∈ get_keys_to_translate catalog store, q ∈ catalog :=
    fun q hq => (List.mem_filter.mp hq).1
  constructor
  · intro glossary tr st st' k t hk hok
    by_cases hq : qaFails glossary tr t
    · rw [processKey_eq_error st k hq] at hok
      exact absurd hok (by simp)
    · rw [processKey_eq_ok st k hq] at hok
      have hkpre : ("__source__:".data).isPrefixOf k = false := by
        simpa using hpre (k, t) (hsub _ hk)
      have hne : k ≠ sourceMarker k := ne_sourceMarker_of_not_reserved hkpre k
      cases hok
      refine ⟨?_, ?_, ?_⟩
      · rw [update_other _ _ hne, update_same]
      · rw [update_same]
      · intro x hx1 hx2
        rw [update_other _ _ hx2, update_other _ _ hx1]
  · intro k k' t t' hk hk' hne
    have hkpre : ("__source__:".data).isPrefixOf k = false := by
      simpa using hpre (k, t) (hsub _ hk)
    have hkpre' : ("__source__:".data).isPrefixOf k' = false := by
      simpa using hpre (k', t') (hsub _ hk')
    refine ⟨ne_sourceMarker_of_not_reserved hkpre k', ?_, ?_⟩
    · exact fun hc => ne_sourceMarker_of_not_reserved hkpre' k hc.symm
    · intro hc
      exact hne (sourceMarker_injective hc)

theorem claim_C10_witness :
    "a".data ≠ sourceMarker "b".data ∧ sourceMarker "a".data ≠ "b".data ∧
      sourceMarker "a".data ≠ sourceMarker "b".data :=
  (claim_C10 [("a".data, "x".data), ("b".data, "y".data)] emptyStore
    (by decide)).2 "a".data "b".data "x".data "y".data
    (by decide) (by decide) (by decide)

end Pipeline

namespace Pipeline

/-! ### Token-scanner facts used for the glossary claim -/

theorem of_isTokChar_eq_false {d : Char} (h : isTokChar d = false) :
    d ≠ '<' ∧ d ≠ '>' ∧ d ≠ 'V' ∧ d ≠ 'A' ∧ d ≠ 'R' ∧ pyIsDigit d = false := by
  simp only [isTokChar, decide_eq_false_iff_not, not_or] at h
  refine ⟨h.1, h.2.1, h.2.2.1, h.2.2.2.1, h.2.2.2.2.1, ?_⟩
  simpa using h.2.2.2.2.2

theorem isVarTokenAt_none_of_ne {c : Char} (h : c ≠ '<') (w : Text) :
    isVarTokenAt (c :: w) = none := by
  simp only [isVarTokenAt]
  rw [if_neg]
  intro hc
  exact h hc.1

theorem findallVar_cons_of_ne {c : Char} (h : c ≠ '<') (w : Text) :
    findallVar (c :: w) = findallVar w := by
  rw [findallVar_cons, isVarTokenAt_none_of_ne h]

/-- Characters other than `<` in front of a string do not change the tokens
found in it. -/
theorem findallVar_append_of_no_lt {u : Text} (h : ∀ c ∈ u, c ≠ '<') (w : Text) :
    findallVar (u ++ w) = findallVar w := by
  induction u with
  | nil => rfl
  | cons c u ih =>
    rw [List.cons_append, findallVar_cons_of_ne (h c (by simp)) _,
      ih (fun d hd => h d (by simp [hd]))]

theorem takeWhile_append_cons_of_neg {p : Char → Bool} {d : Char}
    (hd : p d = false) : ∀ (xs ys : Text),
      (xs ++ d :: ys).takeWhile p = xs.takeWhile p := by
  intro xs ys
  induction xs with
  | nil => simp [List.takeWhile_cons, hd]
  | cons x xs ih =>
    simp only [List.cons_append, List.takeWhile_cons]
    cases hx : p x <;> simp [ih]

theorem head?_append_of_ne_nil {xs : Text} (h : xs ≠ []) (ys : Text) :
    (xs ++ ys).head? = xs.head? := by
  cases xs with
  | nil => exact absurd rfl h
  | cons x xs => rfl

theorem tail_append_of_ne_nil {xs : Text} (h : xs ≠ []) (ys : Text) :
    (xs ++ ys).tail = xs.tail ++ ys := by
  cases xs with
  | nil => exact absurd rfl h
  | cons x xs => rfl

/-- The definitional unfolding of `isVarTokenAt` on a cons cell, with the
lets inlined. -/
theorem isVarTokenAt_cons (c : Char) (rest : Text) :
    isVarTokenAt (c :: rest) =
      if c = '<' ∧ rest.take 3 = ['V', 'A', 'R'] then
        if (rest.drop 3).takeWhile (fun d => pyIsDigit d) ≠ [] ∧
            ((rest.drop 3).drop
              ((rest.drop 3).takeWhile (fun d => pyIsDigit d)).length).head?
              = some '>' then
          some ('<' :: 'V' :: 'A' :: 'R' ::
              (rest.drop 3).takeWhile (fun d => pyIsDigit d) ++ ['>'],
            ((rest.drop 3).drop
              ((rest.drop 3).takeWhile (fun d => pyIsDigit d)).length).tail)
        else none
      else none := rfl

/-- Appending `d :: b` (with `d` outside the token alphabet) behind a string
does not change whether a token match starts at its head, what the token is,
or where the scan continues (the continuation is just extended). -/
theorem isVarTokenAt_append_sep {d : Char} (hd : isTokChar d = false)
    (a b : Text) :
    isVarTokenAt (a ++ d :: b) =
      Option.map (fun p => (p.1, p.2 ++ d :: b)) (isVarTokenAt a) := by
  obtain ⟨hlt, hgt, hV, hA, hR, hdig⟩ := of_isTokChar_eq_false hd
  match a with
  | [] =>
    rw [List.nil_append, isVarTokenAt_none_of_ne hlt]
    rfl
  | c :: r =>
    by_cases hc : c = '<'
    · subst hc
      match r with
      | [] =>
        rw [List.cons_append, List.nil_append, isVarTokenAt_cons,
          isVarTokenAt_cons]
        rw [if_neg, if_neg]
        · rfl
        · intro h
          simp at h
        · intro h
          have h2 := h.2
          rw [List.take_succ_cons] at h2
          injection h2 with h3 _
          exact hV h3
      | [x] =>
        rw [List.cons_append, isVarTokenAt_cons, isVarTokenAt_cons]
        rw [if_neg, if_neg]
        · rfl
        · intro h
          have h2 := h.2
          simp at h2
        · intro h
          have h2 := h.2
          rw [List.cons_append, List.nil_append, List.take_succ_cons,
            List.take_succ_cons] at h2
          injection h2 with _ h3
          injection h3 with h4 _
          exact hA h4
      | [x, y] =>
        rw [List.cons_append, isVarTokenAt_cons, isVarTokenAt_cons]
        rw [if_neg, if_neg]
        · rfl
        · intro h
          have h2 := h.2
          simp at h2
        · intro h
          have h2 := h.2
          rw [List.cons_append, List.cons_append, List.nil_append,
            List.take_succ_cons, List.take_succ_cons, List.take_succ_cons] at h2
          injection h2 with _ h3
          injection h3 with _ h4
          injection h4 with h5 _
          exact hR h5
      | x :: y :: z :: r' =>
        simp only [List.cons_append]
        rw [isVarTokenAt_cons, isVarTokenAt_cons]
        have e1 : (x :: y :: z :: (r' ++ d :: b)).take 3 = [x, y, z] := rfl
        have e2 : (x :: y :: z :: r').take 3 = [x, y, z] := rfl
        have e3 : (x :: y :: z :: (r' ++ d :: b)).drop 3 = r' ++ d :: b := rfl
        have e4 : (x :: y :: z :: r').drop 3 = r' := rfl
        rw [e1, e2, e3, e4]
        by_cases hxyz : x = 'V' ∧ y = 'A' ∧ z = 'R'
        · obtain ⟨hx, hy, hz⟩ := hxyz
          subst hx; subst hy; subst hz
          have hds : (r' ++ d :: b).takeWhile (fun e => pyIsDigit e) =
              r'.takeWhile (fun e => pyIsDigit e) :=
            takeWhile_append_cons_of_neg hdig r' b
          rw [hds]
          have hco : ('<' : Char) = '<' ∧
              (['V', 'A', 'R'] : List Char) = ['V', 'A', 'R'] := ⟨rfl, rfl⟩
          rw [if_pos hco, if_pos hco]
          set ds := r'.takeWhile (fun e => pyIsDigit e) with hdsdef
          have hlen : ds.length ≤ r'.length :=
            (List.takeWhile_prefix _).sublist.length_le
          by_cases hnil : ds = []
          · have hn1 : ¬ (ds ≠ [] ∧
                ((r' ++ d :: b).drop ds.length).head? = some '>') :=
              fun h => h.1 hnil
            have hn2 : ¬ (ds ≠ [] ∧ (r'.drop ds.length).head? = some '>') :=
              fun h => h.1 hnil
            rw [if_neg hn1, if_neg hn2]
            rfl
          · rcases Nat.lt_or_ge ds.length r'.length with hlt' | hge
            · have hdrop : (r' ++ d :: b).drop ds.length =
                  r'.drop ds.length ++ d :: b :=
                List.drop_append_of_le_length (Nat.le_of_lt hlt')
              have hne : r'.drop ds.length ≠ [] := by
                intro hc0
                have := congrArg List.length hc0
                simp only [List.length_drop, List.length_nil] at this
                omega
              rw [hdrop, head?_append_of_ne_nil hne]
              by_cases hgtc : (r'.drop ds.length).head? = some '>'
              · have hcp : ds ≠ [] ∧ (r'.drop ds.length).head? = some '>' :=
                  ⟨hnil, hgtc⟩
                rw [if_pos hcp, if_pos hcp, tail_append_of_ne_nil hne]
                rfl
              · have hcn : ¬ (ds ≠ [] ∧ (r'.drop ds.length).head? = some '>') :=
                  fun h => hgtc h.2
                rw [if_neg hcn, if_neg hcn]
                rfl
            · have hds_eq : ds.length = r'.length := Nat.le_antisymm hlen hge
              have hdrop_r : r'.drop ds.length = [] := by
                apply List.eq_nil_of_length_eq_zero
                simp [List.length_drop, hds_eq]
              have hdrop : (r' ++ d :: b).drop ds.length = d :: b := by
                rw [List.drop_append_of_le_length (Nat.le_of_eq hds_eq), hdrop_r,
                  List.nil_append]
              rw [hdrop, hdrop_r]
              have hn1 : ¬ (ds ≠ [] ∧ (d :: b).head? = some '>') := by
                intro hcc
                have h2 := hcc.2
                simp only [List.head?_cons, Option.some.injEq] at h2
                exact hgt h2
              have hn2 : ¬ (ds ≠ [] ∧ ([] : Text).head? = some '>') := by
                intro hcc
                have h2 := hcc.2
                simp at h2
              rw [if_neg hn1, if_neg hn2]
              rfl
        · have hn1 : ¬ (('<' : Char) = '<' ∧
              ([x, y, z] : List Char) = ['V', 'A', 'R']) := by
            intro hcc
            apply hxyz
            have h2 := hcc.2
            injection h2 with h3 h4
            injection h4 with h5 h6
            injection h6 with h7 _
            exact ⟨h3, h5, h7⟩
          rw [if_neg hn1, if_neg hn1]
          rfl
    · rw [List.cons_append, isVarTokenAt_none_of_ne hc, isVarTokenAt_none_of_ne hc]
      rfl

end Pipeline

namespace Pipeline

/-- A character outside the token alphabet splits the token scan: the tokens
of `a ++ d :: b` are the tokens of `a` followed by the tokens of `b`. -/
theorem findallVar_append_sep {d : Char} (hd : isTokChar d = false) :
    ∀ (a b : Text), findallVar (a ++ d :: b) = findallVar a ++ findallVar b := by
  have hlt := (of_isTokChar_eq_false hd).1
  suffices H : ∀ (n : Nat) (a b : Text), a.length ≤ n →
      findallVar (a ++ d :: b) = findallVar a ++ findallVar b by
    intro a b
    exact H a.length a b (le_refl _)
  intro n
  induction n with
  | zero =>
    intro a b h
    have ha : a = [] := List.eq_nil_of_length_eq_zero (Nat.le_zero.mp h)
    subst ha
    rw [List.nil_append, findallVar_cons_of_ne hlt, findallVar_nil,
      List.nil_append]
  | succ n ih =>
    intro a b h
    match a with
    | [] =>
      rw [List.nil_append, findallVar_cons_of_ne hlt, findallVar_nil,
        List.nil_append]
    | c :: r =>
      have hsep := isVarTokenAt_append_sep hd (c :: r) b
      rw [List.cons_append] at hsep
      simp only [List.length_cons] at h
      rw [List.cons_append, findallVar_cons, findallVar_cons, hsep]
      cases hat : isVarTokenAt (c :: r) with
      | some pr =>
        obtain ⟨tok, after⟩ := pr
        have hshrink := isVarTokenAt_shrinks hat
        simp only [List.length_cons] at hshrink
        dsimp only [Option.map]
        rw [ih after b (by omega)]
        rfl
      | none =>
        dsimp only [Option.map]
        exact ih r b (by omega)

/-- Replacement scan copies a run of token characters unchanged when the
pattern starts with a character outside the token alphabet. -/
theorem replaceAll_copy_tokrun {old new : Text} {o : Char} {old' : Text}
    (holdeq : old = o :: old') (ho : isTokChar o = false) :
    ∀ (u w : Text), (∀ c ∈ u, isTokChar c = true) →
      replaceAll old new (u ++ w) = u ++ replaceAll old new w := by
  intro u
  induction u with
  | nil => intro w _; rw [List.nil_append, List.nil_append]
  | cons x u ih =>
    intro w hu
    rw [List.cons_append, replaceAll_cons]
    have hx : isTokChar x = true := hu x (by simp)
    have hox : ¬ old.isPrefixOf (x :: (u ++ w)) = true := by
      rw [holdeq]
      simp only [List.isPrefixOf_cons₂]
      intro hc
      have hox2 : o = x := by
        have := (Bool.and_eq_true _ _).mp hc
        exact beq_iff_eq.mp this.1
      rw [hox2] at ho
      rw [hx] at ho
      exact absurd ho (by simp)
    rw [if_neg (fun hcc => hox hcc.2)]
    rw [ih w (fun c hc => hu c (by simp [hc]))]
    rfl

/-- The unfolding of `replaceAll` when the pattern is a prefix. -/
theorem replaceAll_of_isPrefixOf {old new : Text} {c : Char} {rest : Text}
    (hne : old ≠ []) (hp : old.isPrefixOf (c :: rest) = true) :
    replaceAll old new (c :: rest) =
      new ++ replaceAll old new ((c :: rest).drop old.length) := by
  rw [replaceAll_cons, if_pos ⟨hne, hp⟩]

/-- The unfolding of `replaceAll` when the pattern does not match here. -/
theorem replaceAll_of_not_isPrefixOf {old new : Text} {c : Char} {rest : Text}
    (hp : ¬ old.isPrefixOf (c :: rest) = true) :
    replaceAll old new (c :: rest) = c :: replaceAll old new rest := by
  rw [replaceAll_cons, if_neg (fun hcc => hp hcc.2)]

/-- The head of a `dropWhile` result fails the predicate. -/
theorem dropWhile_head_false {p : Char → Bool} :
    ∀ (l : Text) (e : Char) (rest' : Text),
      l.dropWhile p = e :: rest' → p e = false := by
  intro l
  induction l with
  | nil => intro e rest' h; simp at h
  | cons x l ih =>
    intro e rest' h
    rw [List.dropWhile_cons] at h
    by_cases hx : p x = true
    · rw [if_pos hx] at h
      exact ih e rest' h
    · rw [if_neg hx] at h
      injection h with h1 _
      rw [← h1]
      exact Bool.eq_false_iff.mpr hx

/-- A nonempty run of non-token characters glues: the tokens of
`a ++ (u ++ b)` are the tokens of `a` followed by the tokens of `b`. -/
theorem findallVar_append_run (a : Text) {u : Text} (hu : u ≠ [])
    (huc : ∀ c ∈ u, isTokChar c = false) (b : Text) :
    findallVar (a ++ (u ++ b)) = findallVar a ++ findallVar b := by
  obtain ⟨f, u', huf⟩ := List.exists_cons_of_ne_nil hu
  subst huf
  have hf : isTokChar f = false := huc f (by simp)
  rw [List.cons_append, findallVar_append_sep hf, findallVar_append_of_no_lt
    (fun c hc => (of_isTokChar_eq_false (huc c (by simp [hc]))).1)]

/-- If every character of a nonempty `old` and of a nonempty `new` is
outside the token alphabet, replacement preserves the list of scanned
tokens. -/
theorem findallVar_replaceAll {old new : Text}
    (hone : old ≠ []) (ho : ∀ c ∈ old, isTokChar c = false)
    (hnne : new ≠ []) (hn : ∀ c ∈ new, isTokChar c = false) :
    ∀ (z : Text), findallVar (replaceAll old new z) = findallVar z := by
  obtain ⟨o, old', holdeq⟩ := List.exists_cons_of_ne_nil hone
  obtain ⟨nf, new', hneweq⟩ := List.exists_cons_of_ne_nil hnne
  have hoo : isTokChar o = false := ho o (by simp [holdeq])
  have hnf : isTokChar nf = false := hn nf (by simp [hneweq])
  have holt : ∀ c ∈ old, c ≠ '<' := fun c hc => (of_isTokChar_eq_false (ho c hc)).1
  have hnlt : ∀ c ∈ new, c ≠ '<' := fun c hc => (of_isTokChar_eq_false (hn c hc)).1
  suffices H : ∀ (n : Nat) (z : Text), z.length ≤ n →
      findallVar (replaceAll old new z) = findallVar z by
    intro z
    exact H z.length z (le_refl _)
  intro n
  induction n with
  | zero =>
    intro z h
    have hz : z = [] := List.eq_nil_of_length_eq_zero (Nat.le_zero.mp h)
    subst hz
    rfl
  | succ n ih =>
    intro z h
    match z with
    | [] => rfl
    | c :: rest =>
      simp only [List.length_cons] at h
      by_cases hp : old.isPrefixOf (c :: rest) = true
      · rw [replaceAll_of_isPrefixOf hone hp]
        rw [findallVar_append_of_no_lt hnlt]
        obtain ⟨tl, htl⟩ := List.isPrefixOf_iff_prefix.mp hp
        have hdrop : (c :: rest).drop old.length = tl := by
          rw [← htl, List.drop_left]
        rw [hdrop]
        have hlen : tl.length ≤ n := by
          have := congrArg List.length htl
          simp only [List.length_append, List.length_cons] at this
          have hol : 1 ≤ old.length := List.length_pos.mpr hone
          omega
        rw [ih tl hlen]
        conv_rhs => rw [← htl]
        rw [findallVar_append_of_no_lt holt]
      · rw [replaceAll_of_not_isPrefixOf hp]
        by_cases hc : c = '<'
        · subst hc
          have hsplit : rest.takeWhile isTokChar ++ rest.dropWhile isTokChar
              = rest := List.takeWhile_append_dropWhile _ _
          have htw : ∀ e ∈ rest.takeWhile isTokChar, isTokChar e = true :=
            fun e he => List.mem_takeWhile_imp he
          have hlentw : (rest.dropWhile isTokChar).length ≤ rest.length := by
            have := congrArg List.length hsplit
            simp only [List.length_append] at this
            omega
          conv_lhs => rw [← hsplit]
          conv_rhs => rw [← hsplit]
          rw [replaceAll_copy_tokrun holdeq hoo _ _ htw]
          cases hdw : rest.dropWhile isTokChar with
          | nil => rfl
          | cons e rest' =>
            have he : isTokChar e = false := dropWhile_head_false rest e rest' hdw
            have hlene : rest'.length + 1 ≤ rest.length := by
              rw [hdw] at hlentw
              simpa using hlentw
            by_cases hp2 : old.isPrefixOf (e :: rest') = true
            · rw [replaceAll_of_isPrefixOf hone hp2]
              obtain ⟨tl, htl⟩ := List.isPrefixOf_iff_prefix.mp hp2
              have hdrop : (e :: rest').drop old.length = tl := by
                rw [← htl, List.drop_left]
              rw [hdrop]
              have htl_len : tl.length ≤ n := by
                have h1 := congrArg List.length htl
                simp only [List.length_append, List.length_cons] at h1
                have hol : 1 ≤ old.length := List.length_pos.mpr hone
                omega
              have hL : ('<' :: (rest.takeWhile isTokChar ++
                    (new ++ replaceAll old new tl)))
                  = ('<' :: rest.takeWhile isTokChar) ++
                    (new ++ replaceAll old new tl) := rfl
              have hR : ('<' :: (rest.takeWhile isTokChar ++ (e :: rest')))
                  = ('<' :: rest.takeWhile isTokChar) ++ (e :: rest') := rfl
              rw [hL, hR, ← htl, findallVar_append_run _ hone ho,
                findallVar_append_run _ hnne hn, ih tl htl_len]
            · rw [replaceAll_of_not_isPrefixOf hp2]
              have hL : ('<' :: (rest.takeWhile isTokChar ++
                    (e :: replaceAll old new rest')))
                  = ('<' :: rest.takeWhile isTokChar) ++
                    (e :: replaceAll old new rest') := rfl
              have hR : ('<' :: (rest.takeWhile isTokChar ++ (e :: rest')))
                  = ('<' :: rest.takeWhile isTokChar) ++ (e :: rest') := rfl
              rw [hL, hR, findallVar_append_sep he, findallVar_append_sep he,
                ih rest' (by omega)]
        · rw [findallVar_cons_of_ne hc, findallVar_cons_of_ne hc]
          exact ih rest (by omega)

end Pipeline

namespace Pipeline

/-- Folding glossary substitutions whose terms avoid the token alphabet
preserves the scanned token list. -/
theorem findallVar_glossary_foldl :
    ∀ (g : List (Text × Text)),
      (∀ p ∈ g, p.1 ≠ [] ∧ p.2 ≠ [] ∧ (∀ c ∈ p.1, isTokChar c = false) ∧
        (∀ c ∈ p.2, isTokChar c = false)) →
      ∀ text : Text,
        findallVar (g.foldl (fun acc pr => pyReplace acc pr.1 pr.2) text) =
          findallVar text := by
  intro g
  induction g with
  | nil => intro _ text; rfl
  | cons p g ih =>
    intro hg text
    rw [List.foldl_cons]
    rw [ih (fun q hq => hg q (by simp [hq])) (pyReplace text p.1 p.2)]
    obtain ⟨h1, h2, h3, h4⟩ := hg p (by simp)
    show findallVar (pyReplace text p.1 p.2) = findallVar text
    unfold pyReplace
    rw [if_neg h1]
    exact findallVar_replaceAll h1 h3 h2 h4 text

/-- C8 counterexample: for an arbitrary glossary the claim is false — a
glossary whose source term is itself a token rewrites the token away, so
the extracted token set changes. -/
theorem claim_C8_cex :
    extract_placeholders
        (apply_glossary "<VAR1>".data [("<VAR1>".data, "x".data)])
      ≠ extract_placeholders "<VAR1>".data := by
  decide

/-- C8 (amended): for glossary tables whose source and target terms are
nonempty and contain no character of the token alphabet (`<`, `>`, `V`,
`A`, `R`, or a Unicode decimal digit, the class Python's `\d` matches) —
in particular any ordinary lower-case terminology — applying the glossary
leaves the extracted token set of any text unchanged: the `<VARk>`
placeholders are inert under glossary substitution. -/
theorem claim_C8 (glossary : List (Text × Text))
    (hg : ∀ p ∈ glossary, p.1 ≠ [] ∧ p.2 ≠ [] ∧
      (∀ c ∈ p.1, isTokChar c = false) ∧ (∀ c ∈ p.2, isTokChar c = false))
    (text : Text) :
    extract_placeholders (apply_glossary text glossary) =
      extract_placeholders text := by
  unfold extract_placeholders apply_glossary
  rw [findallVar_glossary_foldl glossary hg text]

theorem claim_C8_witness :
    extract_placeholders
        (apply_glossary "le <VAR1> item".data [("item".data, "article".data)])
      = extract_placeholders "le <VAR1> item".data :=
  claim_C8 [("item".data, "article".data)] (by decide) "le <VAR1> item".data

end Pipeline

namespace Pipeline

/-! ### Facts about `natDigits` and `varToken` -/

theorem digitChar_isDigit {d : Nat} (h : d < 10) : (digitChar d).isDigit = true := by
  unfold digitChar
  interval_cases d <;> decide

theorem digitChar_toNat {d : Nat} (h : d < 10) : (digitChar d).toNat = 48 + d := by
  unfold digitChar
  interval_cases d <;> decide

theorem natDigits_all_digits : ∀ n, ∀ c ∈ natDigits n, c.isDigit = true := by
  suffices H : ∀ (N n : Nat), n ≤ N → ∀ c ∈ natDigits n, c.isDigit = true by
    intro n
    exact H n n (le_refl _)
  intro N
  induction N with
  | zero =>
    intro n h c hc
    have hn : n = 0 := Nat.le_zero.mp h
    subst hn
    rw [natDigits_eq] at hc
    simp only [if_pos (by omega : (0 : Nat) < 10)] at hc
    rw [List.mem_singleton] at hc
    subst hc
    exact digitChar_isDigit (by omega)
  | succ N ih =>
    intro n h c hc
    rw [natDigits_eq] at hc
    by_cases hn : n < 10
    · rw [if_pos hn, List.mem_singleton] at hc
      subst hc
      exact digitChar_isDigit hn
    · rw [if_neg hn] at hc
      rcases List.mem_append.mp hc with hc1 | hc1
      · have : n / 10 < n := Nat.div_lt_self (by omega) (by omega)
        exact ih (n / 10) (by omega) c hc1
      · rw [List.mem_singleton] at hc1
        subst hc1
        exact digitChar_isDigit (Nat.mod_lt _ (by omega))

/-- An ASCII digit lies in the first `Nd` range. -/
theorem pyIsDigit_of_isDigit {c : Char} (h : c.isDigit = true) :
    pyIsDigit c = true := by
  simp only [Char.isDigit, Bool.and_eq_true, decide_eq_true_eq] at h
  obtain ⟨h1, h2⟩ := h
  have h1' : 48 ≤ c.toNat := h1
  have h2' : c.toNat ≤ 57 := h2
  unfold pyIsDigit
  rw [List.any_eq_true]
  refine ⟨(48, 57), by decide, ?_⟩
  simp [h1', h2']

theorem natDigits_all_pyDigits (n : Nat) :
    ∀ c ∈ natDigits n, pyIsDigit c = true :=
  fun c hc => pyIsDigit_of_isDigit (natDigits_all_digits n c hc)

theorem natDigits_ne_nil (n : Nat) : natDigits n ≠ [] := by
  rw [natDigits_eq]
  by_cases hn : n < 10
  · rw [if_pos hn]
    simp
  · rw [if_neg hn]
    simp

theorem digitsVal_natDigits : ∀ n, digitsVal (natDigits n) = n := by
  suffices H : ∀ (N n : Nat), n ≤ N → digitsVal (natDigits n) = n by
    intro n
    exact H n n (le_refl _)
  intro N
  induction N with
  | zero =>
    intro n h
    have hn : n = 0 := Nat.le_zero.mp h
    subst hn
    rw [natDigits_eq, if_pos (by omega : (0 : Nat) < 10)]
    simp [digitsVal, digitChar_toNat]
  | succ N ih =>
    intro n h
    rw [natDigits_eq]
    by_cases hn : n < 10
    · rw [if_pos hn]
      simp only [digitsVal, List.foldl_cons, List.foldl_nil]
      rw [digitChar_toNat hn]
      omega
    · rw [if_neg hn]
      have hlt : n / 10 < n := Nat.div_lt_self (by omega) (by omega)
      have hrec := ih (n / 10) (by omega)
      simp only [digitsVal, List.foldl_append, List.foldl_cons, List.foldl_nil]
      simp only [digitsVal] at hrec
      rw [hrec, digitChar_toNat (Nat.mod_lt _ (by omega))]
      omega

theorem natDigits_inj {m n : Nat} (h : natDigits m = natDigits n) : m = n := by
  have := congrArg digitsVal h
  rwa [digitsVal_natDigits, digitsVal_natDigits] at this

theorem ne_of_isDigit {c : Char} (h : c.isDigit = true) :
    c ≠ '<' ∧ c ≠ '>' ∧ c ≠ '{' ∧ c ≠ '}' := by
  refine ⟨?_, ?_, ?_, ?_⟩ <;> intro hc <;> subst hc <;> simp at h

/-- The characters of a `<VARk>` token are never braces and only its first
character is `<`. -/
theorem varToken_eq_cons (j : Nat) :
    varToken j = '<' :: ('V' :: 'A' :: 'R' :: natDigits j ++ ['>']) := rfl

theorem varToken_tail_ne_lt (j : Nat) :
    ∀ c ∈ ('V' :: 'A' :: 'R' :: natDigits j ++ ['>'] : Text), c ≠ '<' := by
  intro c hc
  have hc' : c = 'V' ∨ c = 'A' ∨ c = 'R' ∨ c ∈ natDigits j ∨ c = '>' := by
    simp only [List.mem_cons, List.mem_append, List.mem_singleton] at hc
    tauto
  rcases hc' with h | h | h | h | h
  · subst h; decide
  · subst h; decide
  · subst h; decide
  · exact (ne_of_isDigit (natDigits_all_digits j c h)).1
  · subst h; decide

theorem varToken_no_brace (j : Nat) :
    ∀ c ∈ varToken j, c ≠ '{' ∧ c ≠ '}' := by
  intro c hc
  rw [varToken_eq_cons] at hc
  have hc' : c = '<' ∨ c = 'V' ∨ c = 'A' ∨ c = 'R' ∨ c ∈ natDigits j ∨ c = '>' := by
    simp only [List.mem_cons, List.mem_append, List.mem_singleton] at hc
    tauto
  rcases hc' with h | h | h | h | h | h
  · subst h; exact ⟨by decide, by decide⟩
  · subst h; exact ⟨by decide, by decide⟩
  · subst h; exact ⟨by decide, by decide⟩
  · subst h; exact ⟨by decide, by decide⟩
  · exact ⟨(ne_of_isDigit (natDigits_all_digits j c h)).2.2.1,
      (ne_of_isDigit (natDigits_all_digits j c h)).2.2.2⟩
  · subst h; exact ⟨by decide, by decide⟩

theorem varToken_ne_nil (j : Nat) : varToken j ≠ [] := by
  rw [varToken_eq_cons]
  simp

theorem takeWhile_eq_self_of_all {p : Char → Bool} :
    ∀ {l : Text}, (∀ c ∈ l, p c = true) → l.takeWhile p = l := by
  intro l
  induction l with
  | nil => intro _; rfl
  | cons x l ih =>
    intro h
    rw [List.takeWhile_cons, if_pos (h x (by simp))]
    rw [ih (fun c hc => h c (by simp [hc]))]

/-- The token scanner recognizes a `<VARj>` token at the head and continues
right after it. -/
theorem isVarTokenAt_varToken (j : Nat) (w : Text) :
    isVarTokenAt (varToken j ++ w) = some (varToken j, w) := by
  rw [varToken_eq_cons]
  have hsh : ('<' :: ('V' :: 'A' :: 'R' :: natDigits j ++ ['>'])) ++ w
      = '<' :: ('V' :: 'A' :: 'R' :: (natDigits j ++ '>' :: w)) := by
    simp
  rw [hsh, isVarTokenAt_cons]
  have htake : ('V' :: 'A' :: 'R' :: (natDigits j ++ '>' :: w)).take 3
      = ['V', 'A', 'R'] := rfl
  have hdrop3 : ('V' :: 'A' :: 'R' :: (natDigits j ++ '>' :: w)).drop 3
      = natDigits j ++ '>' :: w := rfl
  rw [if_pos ⟨rfl, htake⟩, hdrop3]
  have hds : (natDigits j ++ '>' :: w).takeWhile (fun d => pyIsDigit d)
      = natDigits j := by
    rw [takeWhile_append_cons_of_neg (by decide) (natDigits j) w]
    exact takeWhile_eq_self_of_all (natDigits_all_pyDigits j)
  rw [hds]
  have hdropn : (natDigits j ++ '>' :: w).drop (natDigits j).length = '>' :: w :=
    List.drop_left _ _
  rw [hdropn]
  rw [if_pos ⟨natDigits_ne_nil j, rfl⟩]
  simp

/-- Two digit strings followed by `>` are prefix-compatible only when they
are equal. -/
theorem digits_front_eq :
    ∀ (d1 d2 : Text) (w : Text), (∀ c ∈ d1, c.isDigit = true) →
      (∀ c ∈ d2, c.isDigit = true) →
      (d1 ++ ['>']).isPrefixOf (d2 ++ '>' :: w) = true → d1 = d2 := by
  intro d1
  induction d1 with
  | nil =>
    intro d2 w _ h2 h
    cases d2 with
    | nil => rfl
    | cons d d2' =>
      rw [List.nil_append, List.cons_append, List.isPrefixOf_cons₂] at h
      have hd : ('>' == d) = true := ((Bool.and_eq_true _ _).mp h).1
      have : ('>' : Char) = d := beq_iff_eq.mp hd
      have hdig := h2 d (by simp)
      rw [← this] at hdig
      simp at hdig
  | cons a d1' ih =>
    intro d2 w h1 h2 h
    cases d2 with
    | nil =>
      rw [List.cons_append, List.nil_append, List.isPrefixOf_cons₂] at h
      have ha : (a == '>') = true := ((Bool.and_eq_true _ _).mp h).1
      have : a = '>' := beq_iff_eq.mp ha
      have hdig := h1 a (by simp)
      rw [this] at hdig
      simp at hdig
    | cons d d2' =>
      rw [List.cons_append, List.cons_append, List.isPrefixOf_cons₂] at h
      obtain ⟨had, hrec⟩ := (Bool.and_eq_true _ _).mp h
      have : a = d := beq_iff_eq.mp had
      subst this
      rw [ih d2' w (fun c hc => h1 c (by simp [hc]))
        (fun c hc => h2 c (by simp [hc])) hrec]

/-- A `<VARk>` token is a prefix of `<VARj>`-token-plus-anything only when
`k = j`. -/
theorem varToken_prefix_eq {k j : Nat} {w : Text}
    (h : (varToken k).isPrefixOf (varToken j ++ w) = true) : k = j := by
  rw [varToken_eq_cons, varToken_eq_cons] at h
  have hsh : ('<' :: ('V' :: 'A' :: 'R' :: natDigits j ++ ['>'])) ++ w
      = '<' :: 'V' :: 'A' :: 'R' :: (natDigits j ++ '>' :: w) := by
    simp
  rw [hsh] at h
  have hsh2 : ('<' :: ('V' :: 'A' :: 'R' :: natDigits k ++ ['>']) : Text)
      = '<' :: 'V' :: 'A' :: 'R' :: (natDigits k ++ ['>']) := by
    simp
  rw [hsh2] at h
  rw [List.isPrefixOf_cons₂, List.isPrefixOf_cons₂, List.isPrefixOf_cons₂,
    List.isPrefixOf_cons₂] at h
  simp only [beq_self_eq_true, Bool.true_and] at h
  exact natDigits_inj
    (digits_front_eq (natDigits k) (natDigits j) w
      (natDigits_all_digits k) (natDigits_all_digits j) h)

end Pipeline

namespace Pipeline

/-! ### Segment-level simulation of the mask and restore loops -/

theorem flattenSeg_append : ∀ (a b : List Seg),
    flattenSeg (a ++ b) = flattenSeg a ++ flattenSeg b := by
  intro a b
  induction a with
  | nil => rfl
  | cons s a ih =>
    cases s with
    | chr c => simp [flattenSeg, ih]
    | tok k => simp [flattenSeg, ih]

theorem flattenSeg_map_chr : ∀ (q : Text), flattenSeg (q.map Seg.chr) = q := by
  intro q
  induction q with
  | nil => rfl
  | cons c q ih => simp [flattenSeg, ih]

theorem expandSeg_append (orig : Nat → Text) : ∀ (a b : List Seg),
    expandSeg orig (a ++ b) = expandSeg orig a ++ expandSeg orig b := by
  intro a b
  induction a with
  | nil => rfl
  | cons s a ih =>
    cases s with
    | chr c => simp [expandSeg, ih]
    | tok k => simp [expandSeg, ih]

theorem expandSeg_map_chr (orig : Nat → Text) : ∀ (q : Text),
    expandSeg orig (q.map Seg.chr) = q := by
  intro q
  induction q with
  | nil => rfl
  | cons c q ih => simp [expandSeg, ih]

theorem goodSeg_cons {s : Seg} {ms : List Seg} (h : goodSeg (s :: ms)) :
    goodSeg ms :=
  fun c hc => h c (by simp [hc])

theorem goodSeg_drop {ms : List Seg} (h : goodSeg ms) (n : Nat) :
    goodSeg (ms.drop n) :=
  fun c hc => h c (List.mem_of_mem_drop hc)

theorem goodSeg_append {a b : List Seg} (ha : goodSeg a) (hb : goodSeg b) :
    goodSeg (a ++ b) := by
  intro c hc
  rcases List.mem_append.mp hc with h | h
  · exact ha c h
  · exact hb c h

theorem goodSeg_map_chr {q : Text} (h : ∀ c ∈ q, c ≠ '<' ∧ c ≠ '>') :
    goodSeg (q.map Seg.chr) := by
  intro c hc
  rw [List.mem_map] at hc
  obtain ⟨d, hd, hdc⟩ := hc
  injection hdc with h1
  exact h1 ▸ h d hd

/-- A string whose characters are never `<` is a prefix of the flattening
iff its character-segments are a prefix of the segment list. -/
theorem isPrefixOf_flattenSeg {p : Text} (hp : ∀ c ∈ p, c ≠ '<') :
    ∀ ms : List Seg,
      p.isPrefixOf (flattenSeg ms) = (p.map Seg.chr).isPrefixOf ms := by
  induction p with
  | nil => intro ms; simp [List.isPrefixOf]
  | cons a p ih =>
    intro ms
    cases ms with
    | nil =>
      show (a :: p).isPrefixOf [] = ((a :: p).map Seg.chr).isPrefixOf []
      rfl
    | cons s rest =>
      cases s with
      | chr c =>
        show (a :: p).isPrefixOf (c :: flattenSeg rest)
          = (Seg.chr a :: p.map Seg.chr).isPrefixOf (Seg.chr c :: rest)
        rw [List.isPrefixOf_cons₂, List.isPrefixOf_cons₂]
        have hbeq : (Seg.chr a == Seg.chr c) = (a == c) := by
          by_cases hac : a = c
          · subst hac; simp
          · have : Seg.chr a ≠ Seg.chr c := fun hh => hac (by injection hh)
            simp [hac, this]
        rw [hbeq, ih (fun d hd => hp d (by simp [hd])) rest]
      | tok j =>
        show (a :: p).isPrefixOf (flattenSeg (Seg.tok j :: rest))
          = (Seg.chr a :: p.map Seg.chr).isPrefixOf (Seg.tok j :: rest)
        have hfl : flattenSeg (Seg.tok j :: rest)
            = '<' :: (('V' :: 'A' :: 'R' :: natDigits j ++ ['>'])
              ++ flattenSeg rest) := by
          show varToken j ++ flattenSeg rest = _
          rw [varToken_eq_cons]
          rfl
        rw [hfl, List.isPrefixOf_cons₂]
        have ha : (a == '<') = false := by
          have := hp a (by simp)
          simp [this]
        rw [ha]
        have : (Seg.chr a == Seg.tok j) = false := by
          have hne : Seg.chr a ≠ Seg.tok j := fun hh => by injection hh
          simp [hne]
        rw [List.isPrefixOf_cons₂, this]
        rfl

/-- Replacement copies any run of characters different from the pattern's
head. -/
theorem replaceAll_copy_of_head_ne {old new : Text} {o : Char} {old' : Text}
    (holdeq : old = o :: old') :
    ∀ (u w : Text), (∀ c ∈ u, c ≠ o) →
      replaceAll old new (u ++ w) = u ++ replaceAll old new w := by
  intro u
  induction u with
  | nil => intro w _; rfl
  | cons x u ih =>
    intro w hu
    rw [List.cons_append, replaceAll_cons]
    have hox : ¬ old.isPrefixOf (x :: (u ++ w)) = true := by
      rw [holdeq, List.isPrefixOf_cons₂]
      intro hc
      have h1 := ((Bool.and_eq_true _ _).mp hc).1
      exact hu x (by simp) (beq_iff_eq.mp h1).symm
    rw [if_neg (fun hcc => hox hcc.2)]
    rw [ih w (fun c hc => hu c (by simp [hc]))]
    rfl

/-- One `replace(token, original)` step, seen on segments: it substitutes
exactly the `tok k` segments. -/
theorem restore_sim (k : Nat) (q : Text) :
    ∀ ms : List Seg, goodSeg ms →
      replaceAll (varToken k) q (flattenSeg ms) = flattenSeg (substTok k q ms) := by
  intro ms
  induction ms with
  | nil => intro _; rfl
  | cons s rest ih =>
    intro hg
    cases s with
    | chr c =>
      show replaceAll (varToken k) q (c :: flattenSeg rest)
        = flattenSeg (Seg.chr c :: substTok k q rest)
      rw [replaceAll_cons]
      have hnp : ¬ (varToken k).isPrefixOf (c :: flattenSeg rest) = true := by
        rw [varToken_eq_cons, List.isPrefixOf_cons₂]
        intro hc
        have h1 := ((Bool.and_eq_true _ _).mp hc).1
        exact (hg c (by simp)).1 (beq_iff_eq.mp h1).symm
      rw [if_neg (fun hcc => hnp hcc.2)]
      rw [ih (goodSeg_cons hg)]
      rfl
    | tok j =>
      show replaceAll (varToken k) q (varToken j ++ flattenSeg rest)
        = flattenSeg ((if j = k then q.map Seg.chr else [Seg.tok j])
            ++ substTok k q rest)
      by_cases hjk : j = k
      · subst hjk
        have hpre : (varToken j).isPrefixOf (varToken j ++ flattenSeg rest)
            = true := by
          rw [List.isPrefixOf_iff_prefix]
          exact List.prefix_append _ _
        obtain ⟨c0, t0, hvt⟩ :
            ∃ c0 t0, varToken j ++ flattenSeg rest = c0 :: t0 := by
          rw [varToken_eq_cons, List.cons_append]
          exact ⟨_, _, rfl⟩
        rw [hvt, replaceAll_cons, ← hvt]
        rw [if_pos ⟨varToken_ne_nil j, hvt ▸ hpre⟩]
        have hdrop : (varToken j ++ flattenSeg rest).drop (varToken j).length
            = flattenSeg rest := List.drop_left _ _
        rw [hdrop, ih (goodSeg_cons hg)]
        rw [if_pos rfl, flattenSeg_append, flattenSeg_map_chr]
      · have hnp : ¬ (varToken k).isPrefixOf (varToken j ++ flattenSeg rest)
            = true := fun hc => hjk (varToken_prefix_eq hc).symm
        have hsh : varToken j ++ flattenSeg rest
            = '<' :: (('V' :: 'A' :: 'R' :: natDigits j ++ ['>'])
              ++ flattenSeg rest) := by
          rw [varToken_eq_cons]
          rfl
        rw [hsh] at hnp
        rw [hsh, replaceAll_cons, if_neg (fun hcc => hnp hcc.2)]
        rw [replaceAll_copy_of_head_ne (varToken_eq_cons k) _ _
          (varToken_tail_ne_lt j), ih (goodSeg_cons hg)]
        rw [if_neg hjk]
        have hfl : flattenSeg ([Seg.tok j] ++ substTok k q rest)
            = varToken j ++ flattenSeg (substTok k q rest) := by
          rw [flattenSeg_append]
          show varToken j ++ flattenSeg [] ++ _ = _
          simp [flattenSeg]
        rw [hfl, varToken_eq_cons]
        rfl

end Pipeline

namespace Pipeline

theorem maskItems_nil (p : Text) (i : Nat) : maskItems p i [] = [] := by
  rw [maskItems]

theorem maskItems_cons (p : Text) (i : Nat) (s : Seg) (rest : List Seg) :
    maskItems p i (s :: rest) =
      if p ≠ [] ∧ (p.map Seg.chr).isPrefixOf (s :: rest) then
        Seg.tok i :: maskItems p i ((s :: rest).drop p.length)
      else
        s :: maskItems p i rest := by
  rw [maskItems]

theorem varToken_tail_ne_brace (j : Nat) :
    ∀ c ∈ ('V' :: 'A' :: 'R' :: natDigits j ++ ['>'] : Text), c ≠ '{' := by
  intro c hc
  have : c ∈ varToken j := by
    rw [varToken_eq_cons]
    exact List.mem_cons_of_mem _ hc
  exact (varToken_no_brace j c this).1

/-- One `replace(placeholder, token)` step, seen on segments: it replaces
exactly the character-runs spelling the placeholder. -/
theorem mask_sim {p : Text} {ptail : Text} (hpeq : p = '{' :: ptail)
    (hplt : ∀ c ∈ p, c ≠ '<') (i : Nat) :
    ∀ ms : List Seg, goodSeg ms →
      replaceAll p (varToken i) (flattenSeg ms) = flattenSeg (maskItems p i ms) := by
  have hpne : p ≠ [] := by rw [hpeq]; simp
  suffices H : ∀ (n : Nat) (ms : List Seg), ms.length ≤ n → goodSeg ms →
      replaceAll p (varToken i) (flattenSeg ms) = flattenSeg (maskItems p i ms) by
    intro ms
    exact H ms.length ms (le_refl _)
  intro n
  induction n with
  | zero =>
    intro ms h _
    have hms : ms = [] := List.eq_nil_of_length_eq_zero (Nat.le_zero.mp h)
    subst hms
    rw [maskItems_nil]
    rfl
  | succ n ih =>
    intro ms h hg
    match ms with
    | [] =>
      rw [maskItems_nil]
      rfl
    | s :: rest =>
      simp only [List.length_cons] at h
      by_cases hpre : (p.map Seg.chr).isPrefixOf (s :: rest) = true
      · obtain ⟨ms', hms'⟩ := List.isPrefixOf_iff_prefix.mp hpre
        have hfl : flattenSeg (s :: rest) = p ++ flattenSeg ms' := by
          rw [← hms', flattenSeg_append, flattenSeg_map_chr]
        have hstr : p.isPrefixOf (flattenSeg (s :: rest)) = true := by
          rw [isPrefixOf_flattenSeg hplt]
          exact hpre
        have hceq : flattenSeg (s :: rest) = '{' :: (ptail ++ flattenSeg ms') := by
          rw [hfl, hpeq]
          rfl
        have hstr' := hstr
        rw [hceq] at hstr'
        rw [hceq, replaceAll_cons, if_pos ⟨hpne, hstr'⟩]
        have hpapp : ('{' :: (ptail ++ flattenSeg ms') : Text)
            = p ++ flattenSeg ms' := by
          rw [hpeq]
          rfl
        have hdropc : ('{' :: (ptail ++ flattenSeg ms') : Text).drop p.length
            = flattenSeg ms' := by
          rw [hpapp, List.drop_left]
        rw [hdropc]
        have hmsdrop : (s :: rest).drop p.length = ms' := by
          rw [← hms']
          have hlm : (p.map Seg.chr).length = p.length := List.length_map _ _
          rw [← hlm, List.drop_left]
        have hg' : goodSeg ms' := by
          intro c hc
          apply hg c
          rw [← hms']
          exact List.mem_append_right _ hc
        have hlen' : ms'.length ≤ n := by
          have := congrArg List.length hms'
          simp only [List.length_append, List.length_map, List.length_cons] at this
          have hp1 : 1 ≤ p.length := List.length_pos.mpr hpne
          omega
        rw [ih ms' hlen' hg']
        show varToken i ++ flattenSeg (maskItems p i ms')
          = flattenSeg (maskItems p i (s :: rest))
        rw [maskItems_cons, if_pos ⟨hpne, hpre⟩, hmsdrop]
        rfl
      · rw [maskItems_cons, if_neg (fun hcc => hpre hcc.2)]
        cases s with
        | chr c =>
          show replaceAll p (varToken i) (c :: flattenSeg rest)
            = flattenSeg (Seg.chr c :: maskItems p i rest)
          rw [replaceAll_cons]
          have hnp : ¬ p.isPrefixOf (c :: flattenSeg rest) = true := by
            have hh := isPrefixOf_flattenSeg hplt (Seg.chr c :: rest)
            show ¬ p.isPrefixOf (flattenSeg (Seg.chr c :: rest)) = true
            rw [hh]
            simp [hpre]
          rw [if_neg (fun hcc => hnp hcc.2)]
          rw [ih rest (by omega) (goodSeg_cons hg)]
          rfl
        | tok j =>
          show replaceAll p (varToken i) (varToken j ++ flattenSeg rest)
            = flattenSeg (Seg.tok j :: maskItems p i rest)
          have hsh : varToken j ++ flattenSeg rest
              = '<' :: (('V' :: 'A' :: 'R' :: natDigits j ++ ['>'])
                ++ flattenSeg rest) := by
            rw [varToken_eq_cons]
            rfl
          rw [hsh, replaceAll_cons]
          have hnp : ¬ p.isPrefixOf ('<' :: (('V' :: 'A' :: 'R' :: natDigits j
              ++ ['>']) ++ flattenSeg rest)) = true := by
            rw [hpeq, List.isPrefixOf_cons₂]
            intro hcc
            have h1 := ((Bool.and_eq_true _ _).mp hcc).1
            exact absurd (beq_iff_eq.mp h1) (by decide)
          rw [if_neg (fun hcc => hnp hcc.2)]
          rw [replaceAll_copy_of_head_ne hpeq _ _ (varToken_tail_ne_brace j)]
          rw [ih rest (by omega) (goodSeg_cons hg)]
          show '<' :: (('V' :: 'A' :: 'R' :: natDigits j ++ ['>'])
              ++ flattenSeg (maskItems p i rest))
            = flattenSeg (Seg.tok j :: maskItems p i rest)
          rw [← List.cons_append, ← varToken_eq_cons]
          rfl

/-- Masking only removes plain characters, so the good-characters invariant
is preserved. -/
theorem goodSeg_maskItems {p : Text} {i : Nat} :
    ∀ ms : List Seg, goodSeg ms → goodSeg (maskItems p i ms) := by
  suffices H : ∀ (n : Nat) (ms : List Seg), ms.length ≤ n → goodSeg ms →
      goodSeg (maskItems p i ms) by
    intro ms
    exact H ms.length ms (le_refl _)
  intro n
  induction n with
  | zero =>
    intro ms h _
    have hms : ms = [] := List.eq_nil_of_length_eq_zero (Nat.le_zero.mp h)
    subst hms
    intro c hc
    rw [maskItems_nil] at hc
    simp at hc
  | succ n ih =>
    intro ms h hg
    match ms with
    | [] =>
      intro c hc
      rw [maskItems_nil] at hc
      simp at hc
    | s :: rest =>
      simp only [List.length_cons] at h
      rw [maskItems_cons]
      by_cases hpre : p ≠ [] ∧ (p.map Seg.chr).isPrefixOf (s :: rest) = true
      · rw [if_pos hpre]
        intro c hc
        rcases List.mem_cons.mp hc with h1 | h1
        · exact absurd h1 (by simp)
        · have hlen : ((s :: rest).drop p.length).length ≤ n := by
            simp only [List.length_drop, List.length_cons]
            have hp1 : 1 ≤ p.length := List.length_pos.mpr hpre.1
            omega
          exact ih _ hlen (goodSeg_drop hg p.length) c h1
      · rw [if_neg hpre]
        intro c hc
        rcases List.mem_cons.mp hc with h1 | h1
        · exact hg c (h1 ▸ List.mem_cons_self _ _)
        · exact ih rest (by omega) (goodSeg_cons hg) c h1

/-- The whole masking loop, seen on segments. -/
theorem maskLoop_sim :
    ∀ (ps : List Text) (i : Nat) (ms : List Seg), goodSeg ms →
      (∀ p ∈ ps, (∃ pt, p = '{' :: pt) ∧ ∀ c ∈ p, c ≠ '<') →
      (maskLoop ps i (flattenSeg ms)).1 = flattenSeg (maskFold ps i ms) := by
  intro ps
  induction ps with
  | nil => intro i ms _ _; rfl
  | cons p ps ih =>
    intro i ms hg hps
    obtain ⟨⟨pt, hpt⟩, hplt⟩ := hps p (by simp)
    show (maskLoop ps (i + 1) (pyReplace (flattenSeg ms) p (varToken i))).1
      = flattenSeg (maskFold ps (i + 1) (maskItems p i ms))
    have hpne : p ≠ [] := by rw [hpt]; simp
    have hpy : pyReplace (flattenSeg ms) p (varToken i)
        = replaceAll p (varToken i) (flattenSeg ms) := by
      unfold pyReplace
      rw [if_neg hpne]
    rw [hpy, mask_sim hpt hplt i ms hg]
    exact ih (i + 1) (maskItems p i ms) (goodSeg_maskItems ms hg)
      (fun q hq => hps q (by simp [hq]))

end Pipeline

namespace Pipeline

/-- Masking does not change the expansion that sends token `i` back to `p`. -/
theorem expandSeg_maskItems {orig : Nat → Text} {p : Text} {i : Nat}
    (hoeq : orig i = p) :
    ∀ ms : List Seg, expandSeg orig (maskItems p i ms) = expandSeg orig ms := by
  suffices H : ∀ (n : Nat) (ms : List Seg), ms.length ≤ n →
      expandSeg orig (maskItems p i ms) = expandSeg orig ms by
    intro ms
    exact H ms.length ms (le_refl _)
  intro n
  induction n with
  | zero =>
    intro ms h
    have hms : ms = [] := List.eq_nil_of_length_eq_zero (Nat.le_zero.mp h)
    subst hms
    rw [maskItems_nil]
  | succ n ih =>
    intro ms h
    match ms with
    | [] => rw [maskItems_nil]
    | s :: rest =>
      simp only [List.length_cons] at h
      rw [maskItems_cons]
      by_cases hpre : p ≠ [] ∧ (p.map Seg.chr).isPrefixOf (s :: rest) = true
      · rw [if_pos hpre]
        obtain ⟨ms', hms'⟩ := List.isPrefixOf_iff_prefix.mp hpre.2
        have hmsdrop : (s :: rest).drop p.length = ms' := by
          rw [← hms']
          have hlm : (p.map Seg.chr).length = p.length := List.length_map _ _
          rw [← hlm, List.drop_left]
        have hlen : ms'.length ≤ n := by
          have := congrArg List.length hms'
          simp only [List.length_append, List.length_map, List.length_cons] at this
          have hp1 : 1 ≤ p.length := List.length_pos.mpr hpre.1
          omega
        rw [hmsdrop]
        show orig i ++ expandSeg orig (maskItems p i ms')
          = expandSeg orig (s :: rest)
        rw [ih ms' hlen, ← hms', expandSeg_append, expandSeg_map_chr, hoeq]
      · rw [if_neg hpre]
        cases s with
        | chr c =>
          show c :: expandSeg orig (maskItems p i rest)
            = c :: expandSeg orig rest
          rw [ih rest (by omega)]
        | tok k =>
          show orig k ++ expandSeg orig (maskItems p i rest)
            = orig k ++ expandSeg orig rest
          rw [ih rest (by omega)]

/-- The whole masking loop does not change the expansion, provided the
expansion sends each used token index back to its placeholder. -/
theorem expandSeg_maskFold {orig : Nat → Text} :
    ∀ (ps : List Text) (i : Nat),
      (∀ j, j < ps.length → orig (i + j) = ps.getD j []) →
      ∀ ms : List Seg, expandSeg orig (maskFold ps i ms) = expandSeg orig ms := by
  intro ps
  induction ps with
  | nil => intro i _ ms; rfl
  | cons p ps ih =>
    intro i horig ms
    show expandSeg orig (maskFold ps (i + 1) (maskItems p i ms)) = expandSeg orig ms
    have h0 : orig i = p := by
      have := horig 0 (by simp)
      simpa using this
    rw [ih (i + 1) (fun j hj => by
        have := horig (j + 1) (by simpa using Nat.succ_lt_succ hj)
        have harith : i + (j + 1) = i + 1 + j := by omega
        rw [harith] at this
        simpa using this)
      (maskItems p i ms)]
    exact expandSeg_maskItems h0 ms

/-- Substituting a token whose expansion is its replacement does not change
the expansion. -/
theorem expandSeg_substTok {orig : Nat → Text} {k : Nat}
    (h : orig k = q) :
    ∀ ms : List Seg, expandSeg orig (substTok k q ms) = expandSeg orig ms := by
  intro ms
  induction ms with
  | nil => rfl
  | cons s rest ih =>
    cases s with
    | chr c =>
      show c :: expandSeg orig (substTok k q rest) = c :: expandSeg orig rest
      rw [ih]
    | tok j =>
      show expandSeg orig ((if j = k then q.map Seg.chr else [Seg.tok j])
          ++ substTok k q rest) = orig j ++ expandSeg orig rest
      rw [expandSeg_append, ih]
      by_cases hjk : j = k
      · rw [if_pos hjk, expandSeg_map_chr, hjk, h]
      · rw [if_neg hjk]
        simp [expandSeg]

theorem segToks_append : ∀ (a b : List Seg),
    segToks (a ++ b) = segToks a ++ segToks b := by
  intro a b
  induction a with
  | nil => rfl
  | cons s a ih =>
    cases s with
    | chr c => simpa [segToks] using ih
    | tok k => simpa [segToks] using ih

theorem segToks_map_chr : ∀ (q : Text), segToks (q.map Seg.chr) = [] := by
  intro q
  induction q with
  | nil => rfl
  | cons c q ih => simpa [segToks] using ih

theorem segToks_substTok {k : Nat} {q : Text} :
    ∀ ms : List Seg, ∀ j, j ∈ segToks (substTok k q ms) →
      j ∈ segToks ms ∧ j ≠ k := by
  intro ms
  induction ms with
  | nil => intro j hj; simp [substTok, segToks] at hj
  | cons s rest ih =>
    intro j hj
    cases s with
    | chr c =>
      have : j ∈ segToks (substTok k q rest) := hj
      obtain ⟨h1, h2⟩ := ih j this
      exact ⟨h1, h2⟩
    | tok m =>
      have hj' : j ∈ segToks ((if m = k then q.map Seg.chr else [Seg.tok m])
          ++ substTok k q rest) := hj
      by_cases hmk : m = k
      · rw [if_pos hmk] at hj'
        have hchr : segToks (q.map Seg.chr ++ substTok k q rest)
            = segToks (substTok k q rest) := by
          rw [segToks_append, segToks_map_chr, List.nil_append]
        rw [hchr] at hj'
        obtain ⟨h1, h2⟩ := ih j hj'
        exact ⟨by simp [segToks, h1], h2⟩
      · rw [if_neg hmk] at hj'
        have hj'' : j = m ∨ j ∈ segToks (substTok k q rest) := by
          simpa [segToks] using hj'
        rcases hj'' with h1 | h1
        · subst h1
          exact ⟨by simp [segToks], hmk⟩
        · obtain ⟨h2, h3⟩ := ih j h1
          exact ⟨by simp [segToks, h2], h3⟩

theorem goodSeg_substTok {k : Nat} {q : Text}
    (hq : ∀ c ∈ q, c ≠ '<' ∧ c ≠ '>') :
    ∀ ms : List Seg, goodSeg ms → goodSeg (substTok k q ms) := by
  intro ms
  induction ms with
  | nil => intro _ c hc; simp [substTok] at hc
  | cons s rest ih =>
    intro hg c hc
    cases s with
    | chr d =>
      rcases List.mem_cons.mp hc with h1 | h1
      · injection h1 with h2
        exact h2 ▸ hg d (by simp)
      · exact ih (goodSeg_cons hg) c h1
    | tok m =>
      have hc' : Seg.chr c ∈ (if m = k then q.map Seg.chr else [Seg.tok m])
          ++ substTok k q rest := hc
      rcases List.mem_append.mp hc' with h1 | h1
      · by_cases hmk : m = k
        · rw [if_pos hmk] at h1
          rw [List.mem_map] at h1
          obtain ⟨d, hd, hdc⟩ := h1
          injection hdc with h2
          exact h2 ▸ hq d hd
        · rw [if_neg hmk] at h1
          simp at h1
      · exact ih (goodSeg_cons hg) c h1

/-- A segment list without tokens flattens to its expansion. -/
theorem flattenSeg_eq_expandSeg_of_no_toks (orig : Nat → Text) :
    ∀ ms : List Seg, segToks ms = [] → flattenSeg ms = expandSeg orig ms := by
  intro ms
  induction ms with
  | nil => intro _; rfl
  | cons s rest ih =>
    intro h
    cases s with
    | chr c =>
      show c :: flattenSeg rest = c :: expandSeg orig rest
      rw [ih h]
    | tok k =>
      exact absurd h (by simp [segToks])

/-- The restore loop over a list of token indices covering all tokens of the
state expands every token. -/
theorem restore_fold (orig : Nat → Text) :
    ∀ (K : List Nat) (ms : List Seg), goodSeg ms →
      (∀ j ∈ segToks ms, j ∈ K) →
      (∀ k ∈ K, ∀ c ∈ orig k, c ≠ '<' ∧ c ≠ '>') →
      K.foldl (fun acc k => replaceAll (varToken k) (orig k) acc)
        (flattenSeg ms) = expandSeg orig ms := by
  intro K
  induction K with
  | nil =>
    intro ms _ htoks _
    have : segToks ms = [] := by
      rw [List.eq_nil_iff_forall_not_mem]
      intro j hj
      exact absurd (htoks j hj) (by simp)
    exact flattenSeg_eq_expandSeg_of_no_toks orig ms this
  | cons k K' ih =>
    intro ms hg htoks hK
    rw [List.foldl_cons, restore_sim k (orig k) ms hg]
    rw [ih (substTok k (orig k) ms)
      (goodSeg_substTok (hK k (by simp)) ms hg)
      (fun j hj => by
        obtain ⟨h1, h2⟩ := segToks_substTok ms j hj
        rcases List.mem_cons.mp (htoks j h1) with h3 | h3
        · exact absurd h3 h2
        · exact h3)
      (fun m hm => hK m (by simp [hm]))]
    exact expandSeg_substTok rfl ms

end Pipeline

namespace Pipeline

/-! ### Shape of the matches found by `findallPH` -/

/-- The definitional unfolding of `isPlaceholderAt` on a cons cell. -/
theorem isPlaceholderAt_cons (c : Char) (rest : Text) :
    isPlaceholderAt (c :: rest) =
      if c = '{' then
        if rest.takeWhile (fun d => d ≠ '}') ≠ [] ∧
            (rest.drop (rest.takeWhile (fun d => d ≠ '}')).length).head?
              = some '}' then
          some ('{' :: rest.takeWhile (fun d => d ≠ '}') ++ ['}'],
            (rest.drop (rest.takeWhile (fun d => d ≠ '}')).length).tail)
        else none
      else none := rfl

theorem head?_eq_some_mem {l : Text} {a : Char} (h : l.head? = some a) :
    a ∈ l := by
  cases l with
  | nil => simp at h
  | cons x xs =>
    simp only [List.head?_cons, Option.some.injEq] at h
    simp [h]

theorem isPlaceholderAt_shape {s tok after : Text}
    (h : isPlaceholderAt s = some (tok, after)) :
    ∃ content, tok = '{' :: content ++ ['}'] := by
  match s with
  | [] => simp [isPlaceholderAt] at h
  | c :: rest =>
    rw [isPlaceholderAt_cons] at h
    by_cases hc : c = '{'
    · rw [if_pos hc] at h
      by_cases hcond : rest.takeWhile (fun d => d ≠ '}') ≠ [] ∧
          (rest.drop (rest.takeWhile (fun d => d ≠ '}')).length).head? = some '}'
      · rw [if_pos hcond] at h
        simp only [Option.some.injEq, Prod.mk.injEq] at h
        exact ⟨rest.takeWhile (fun d => d ≠ '}'), h.1.symm⟩
      · rw [if_neg hcond] at h
        simp at h
    · rw [if_neg hc] at h
      simp at h

theorem isPlaceholderAt_chars {s tok after : Text}
    (h : isPlaceholderAt s = some (tok, after)) :
    ∀ c ∈ tok, c ∈ s := by
  match s with
  | [] => simp [isPlaceholderAt] at h
  | c0 :: rest =>
    rw [isPlaceholderAt_cons] at h
    by_cases hc : c0 = '{'
    · rw [if_pos hc] at h
      by_cases hcond : rest.takeWhile (fun d => d ≠ '}') ≠ [] ∧
          (rest.drop (rest.takeWhile (fun d => d ≠ '}')).length).head? = some '}'
      · rw [if_pos hcond] at h
        simp only [Option.some.injEq, Prod.mk.injEq] at h
        intro c hcm
        rw [← h.1] at hcm
        rcases List.mem_cons.mp hcm with h1 | h1
        · subst h1
          rw [hc]
          simp
        · rcases List.mem_append.mp h1 with h2 | h2
          · have : c ∈ rest := (List.takeWhile_prefix _).subset h2
            simp [this]
          · rw [List.mem_singleton] at h2
            subst h2
            have : ('}' : Char) ∈ rest.drop
                (rest.takeWhile (fun d => d ≠ '}')).length :=
              head?_eq_some_mem hcond.2
            have : ('}' : Char) ∈ rest := List.mem_of_mem_drop this
            simp [this]
      · rw [if_neg hcond] at h
        simp at h
    · rw [if_neg hc] at h
      simp at h

theorem isPlaceholderAt_after {s tok after : Text}
    (h : isPlaceholderAt s = some (tok, after)) :
    ∃ pre, s = pre ++ after := by
  match s with
  | [] => simp [isPlaceholderAt] at h
  | c0 :: rest =>
    rw [isPlaceholderAt_cons] at h
    by_cases hc : c0 = '{'
    · rw [if_pos hc] at h
      by_cases hcond : rest.takeWhile (fun d => d ≠ '}') ≠ [] ∧
          (rest.drop (rest.takeWhile (fun d => d ≠ '}')).length).head? = some '}'
      · rw [if_pos hcond] at h
        simp only [Option.some.injEq, Prod.mk.injEq] at h
        set n := (rest.takeWhile (fun d => d ≠ '}')).length
        obtain ⟨d, tl, hdtl⟩ : ∃ d tl, rest.drop n = d :: tl := by
          cases hdr : rest.drop n with
          | nil =>
            rw [hdr] at hcond
            simp at hcond
          | cons d tl => exact ⟨d, tl, rfl⟩
        refine ⟨c0 :: rest.take n ++ [d], ?_⟩
        have hr : rest = rest.take n ++ rest.drop n :=
          (List.take_append_drop n rest).symm
        have hafter : after = tl := by
          rw [← h.2, hdtl]
          rfl
        rw [hafter]
        calc c0 :: rest = c0 :: (rest.take n ++ rest.drop n) := by rw [← hr]
          _ = c0 :: (rest.take n ++ (d :: tl)) := by rw [hdtl]
          _ = (c0 :: rest.take n ++ [d]) ++ tl := by simp
      · rw [if_neg hcond] at h
        simp at h
    · rw [if_neg hc] at h
      simp at h

theorem findallPH_chars :
    ∀ s : Text, ∀ x ∈ findallPH s, ∀ c ∈ x, c ∈ s := by
  suffices H : ∀ (n : Nat) (s : Text), s.length ≤ n →
      ∀ x ∈ findallPH s, ∀ c ∈ x, c ∈ s by
    intro s
    exact H s.length s (le_refl _)
  intro n
  induction n with
  | zero =>
    intro s h x hx
    have hs : s = [] := List.eq_nil_of_length_eq_zero (Nat.le_zero.mp h)
    subst hs
    simp [findallPH_nil] at hx
  | succ n ih =>
    intro s h x hx
    match s with
    | [] => simp [findallPH_nil] at hx
    | c0 :: rest =>
      simp only [List.length_cons] at h
      rw [findallPH_cons] at hx
      cases hat : isPlaceholderAt (c0 :: rest) with
      | some pr =>
        obtain ⟨tok, after⟩ := pr
        rw [hat] at hx
        have hshrink := isPlaceholderAt_shrinks hat
        simp only [List.length_cons] at hshrink
        rcases List.mem_cons.mp hx with h1 | h1
        · subst h1
          exact isPlaceholderAt_chars hat
        · intro c hc
          obtain ⟨pre, hpre⟩ := isPlaceholderAt_after hat
          rw [hpre]
          exact List.mem_append_right _ (ih after (by omega) x h1 c hc)
      | none =>
        rw [hat] at hx
        intro c hc
        exact List.mem_cons_of_mem _ (ih rest (by omega) x hx c hc)

theorem findallPH_shape :
    ∀ s : Text, ∀ x ∈ findallPH s, ∃ content, x = '{' :: content ++ ['}'] := by
  suffices H : ∀ (n : Nat) (s : Text), s.length ≤ n →
      ∀ x ∈ findallPH s, ∃ content, x = '{' :: content ++ ['}'] by
    intro s
    exact H s.length s (le_refl _)
  intro n
  induction n with
  | zero =>
    intro s h x hx
    have hs : s = [] := List.eq_nil_of_length_eq_zero (Nat.le_zero.mp h)
    subst hs
    simp [findallPH_nil] at hx
  | succ n ih =>
    intro s h x hx
    match s with
    | [] => simp [findallPH_nil] at hx
    | c0 :: rest =>
      simp only [List.length_cons] at h
      rw [findallPH_cons] at hx
      cases hat : isPlaceholderAt (c0 :: rest) with
      | some pr =>
        obtain ⟨tok, after⟩ := pr
        rw [hat] at hx
        have hshrink := isPlaceholderAt_shrinks hat
        simp only [List.length_cons] at hshrink
        rcases List.mem_cons.mp hx with h1 | h1
        · subst h1
          exact isPlaceholderAt_shape hat
        · exact ih after (by omega) x h1
      | none =>
        rw [hat] at hx
        exact ih rest (by omega) x hx

end Pipeline

namespace Pipeline

theorem segToks_drop_subset {ms : List Seg} {n : Nat} {j : Nat}
    (h : j ∈ segToks (ms.drop n)) : j ∈ segToks ms := by
  have hms : ms = ms.take n ++ ms.drop n := (List.take_append_drop n ms).symm
  rw [hms, segToks_append]
  exact List.mem_append_right _ h

theorem segToks_maskItems {p : Text} {i : Nat} :
    ∀ ms : List Seg, ∀ j, j ∈ segToks (maskItems p i ms) →
      j = i ∨ j ∈ segToks ms := by
  suffices H : ∀ (n : Nat) (ms : List Seg), ms.length ≤ n →
      ∀ j, j ∈ segToks (maskItems p i ms) → j = i ∨ j ∈ segToks ms by
    intro ms
    exact H ms.length ms (le_refl _)
  intro n
  induction n with
  | zero =>
    intro ms h j hj
    have hms : ms = [] := List.eq_nil_of_length_eq_zero (Nat.le_zero.mp h)
    subst hms
    rw [maskItems_nil] at hj
    simp [segToks] at hj
  | succ n ih =>
    intro ms h j hj
    match ms with
    | [] =>
      rw [maskItems_nil] at hj
      simp [segToks] at hj
    | s :: rest =>
      simp only [List.length_cons] at h
      rw [maskItems_cons] at hj
      by_cases hpre : p ≠ [] ∧ (p.map Seg.chr).isPrefixOf (s :: rest) = true
      · rw [if_pos hpre] at hj
        have hj' : j = i ∨ j ∈ segToks (maskItems p i ((s :: rest).drop p.length)) := by
          simpa [segToks] using hj
        rcases hj' with h1 | h1
        · exact Or.inl h1
        · have hlen : ((s :: rest).drop p.length).length ≤ n := by
            simp only [List.length_drop, List.length_cons]
            have hp1 : 1 ≤ p.length := List.length_pos.mpr hpre.1
            omega
          rcases ih _ hlen j h1 with h2 | h2
          · exact Or.inl h2
          · exact Or.inr (segToks_drop_subset h2)
      · rw [if_neg hpre] at hj
        cases s with
        | chr c =>
          have hj' : j ∈ segToks (maskItems p i rest) := hj
          rcases ih rest (by omega) j hj' with h1 | h1
          · exact Or.inl h1
          · exact Or.inr h1
        | tok m =>
          have hj' : j = m ∨ j ∈ segToks (maskItems p i rest) := by
            simpa [segToks] using hj
          rcases hj' with h1 | h1
          · exact Or.inr (by simp [segToks, h1])
          · rcases ih rest (by omega) j h1 with h2 | h2
            · exact Or.inl h2
            · exact Or.inr (by simp [segToks, h2])

theorem segToks_maskFold :
    ∀ (ps : List Text) (i : Nat) (ms : List Seg) (j : Nat),
      j ∈ segToks (maskFold ps i ms) →
      j ∈ segToks ms ∨ (i ≤ j ∧ j < i + ps.length) := by
  intro ps
  induction ps with
  | nil => intro i ms j hj; exact Or.inl hj
  | cons p ps ih =>
    intro i ms j hj
    have hj' : j ∈ segToks (maskFold ps (i + 1) (maskItems p i ms)) := hj
    rcases ih (i + 1) (maskItems p i ms) j hj' with h1 | h1
    · rcases segToks_maskItems ms j h1 with h2 | h2
      · right
        subst h2
        simp
      · exact Or.inl h2
    · right
      simp only [List.length_cons]
      omega

theorem goodSeg_maskFold :
    ∀ (ps : List Text) (i : Nat) (ms : List Seg), goodSeg ms →
      goodSeg (maskFold ps i ms) := by
  intro ps
  induction ps with
  | nil => intro i ms hg; exact hg
  | cons p ps ih =>
    intro i ms hg
    exact ih (i + 1) (maskItems p i ms) (goodSeg_maskItems ms hg)

theorem findallVar_varToken_append (j : Nat) (X : Text) :
    findallVar (varToken j ++ X) = varToken j :: findallVar X := by
  have hsh : varToken j ++ X
      = '<' :: (('V' :: 'A' :: 'R' :: natDigits j ++ ['>']) ++ X) := by
    rw [varToken_eq_cons]
    rfl
  have htok := isVarTokenAt_varToken j X
  rw [hsh] at htok
  rw [hsh, findallVar_cons, htok]

/-- The tokens scanned in the flattening of a good segment list are exactly
its token segments. -/
theorem findallVar_flattenSeg :
    ∀ ms : List Seg, goodSeg ms →
      findallVar (flattenSeg ms) = (segToks ms).map varToken := by
  intro ms
  induction ms with
  | nil => intro _; rfl
  | cons s rest ih =>
    intro hg
    cases s with
    | chr c =>
      show findallVar (c :: flattenSeg rest) = (segToks (Seg.chr c :: rest)).map varToken
      rw [findallVar_cons_of_ne (hg c (by simp)).1, ih (goodSeg_cons hg)]
      rfl
    | tok j =>
      show findallVar (varToken j ++ flattenSeg rest)
        = (segToks (Seg.tok j :: rest)).map varToken
      rw [findallVar_varToken_append, ih (goodSeg_cons hg)]
      rfl

theorem varToken_inj {i j : Nat} (h : varToken i = varToken j) : i = j := by
  rw [varToken_eq_cons, varToken_eq_cons] at h
  injection h with _ h
  injection h with _ h
  injection h with _ h
  injection h with _ h
  exact natDigits_inj ((List.append_left_inj _).mp h)

/-- The restore fold over the mapping, re-indexed over the token numbers. -/
theorem restore_mapIdx_foldl (orig : Nat → Text) :
    ∀ (ps : List Text) (start : Nat) (m : Text),
      (∀ j, j < ps.length → orig (start + j) = ps.getD j []) →
      List.foldl (fun acc pr => pyReplace acc pr.1 pr.2) m
        (ps.mapIdx fun j p => (varToken (start + j), p)) =
      List.foldl (fun acc k => replaceAll (varToken k) (orig k) acc) m
        (List.range' start ps.length) := by
  intro ps
  induction ps with
  | nil => intro start m _; rfl
  | cons p ps ih =>
    intro start m horig
    rw [List.mapIdx_cons, List.length_cons, List.range'_succ]
    rw [List.foldl_cons, List.foldl_cons]
    have h0 : orig start = p := by
      have := horig 0 (by simp)
      simpa using this
    have hstep : pyReplace m (varToken (start + 0)) p
        = replaceAll (varToken start) (orig start) m := by
      unfold pyReplace
      rw [if_neg (varToken_ne_nil _), h0]
      simp
    rw [hstep]
    have hfn : (fun (i : Nat) (q : Text) => (varToken (start + (i + 1)), q))
        = fun (i : Nat) (q : Text) => (varToken (start + 1 + i), q) := by
      funext i q
      have : start + (i + 1) = start + 1 + i := by omega
      rw [this]
    rw [hfn]
    exact ih (start + 1) _ (fun j hj => by
      have := horig (j + 1) (by simpa using Nat.succ_lt_succ hj)
      have harith : start + (j + 1) = start + 1 + j := by omega
      rw [harith] at this
      simpa using this)

end Pipeline

namespace Pipeline

/-- Round trip: for texts without `<` or `>`, unmasking the masked text with
its own mapping restores the original exactly. -/
theorem roundtrip_of_angle_free (text : Text)
    (ha : ∀ c ∈ text, c ≠ '<' ∧ c ≠ '>') :
    restore_placeholders (mask_placeholders text).1 (mask_placeholders text).2
      = text := by
  have hshape := findallPH_shape text
  have hchars := findallPH_chars text
  have hplt : ∀ p ∈ findallPH text, ∀ c ∈ p, c ≠ '<' :=
    fun p hp c hc => (ha c (hchars p hp c hc)).1
  have hpgt : ∀ p ∈ findallPH text, ∀ c ∈ p, c ≠ '>' :=
    fun p hp c hc => (ha c (hchars p hp c hc)).2
  have hg0 : goodSeg (text.map Seg.chr) := goodSeg_map_chr ha
  have hfl0 : flattenSeg (text.map Seg.chr) = text := flattenSeg_map_chr text
  have hmask1 : (mask_placeholders text).1
      = flattenSeg (maskFold (findallPH text) 1 (text.map Seg.chr)) := by
    have hsim := maskLoop_sim (findallPH text) 1 (text.map Seg.chr) hg0
      (fun p hp => ⟨by
        obtain ⟨content, hcont⟩ := hshape p hp
        exact ⟨content ++ ['}'], hcont⟩, hplt p hp⟩)
    rw [hfl0] at hsim
    exact hsim
  have hmap : (mask_placeholders text).2
      = (findallPH text).mapIdx fun j p => (varToken (1 + j), p) :=
    maskLoop_mapping (findallPH text) 1 text
  have horig : ∀ j, j < (findallPH text).length →
      (fun k => (findallPH text).getD (k - 1) []) (1 + j)
        = (findallPH text).getD j [] := by
    intro j hj
    show (findallPH text).getD (1 + j - 1) [] = (findallPH text).getD j []
    congr 1
    omega
  show List.foldl (fun acc pr => pyReplace acc pr.1 pr.2)
    (mask_placeholders text).1 (mask_placeholders text).2 = text
  rw [hmap, hmask1,
    restore_mapIdx_foldl (fun k => (findallPH text).getD (k - 1) [])
      (findallPH text) 1 _ horig]
  have hgF : goodSeg (maskFold (findallPH text) 1 (text.map Seg.chr)) :=
    goodSeg_maskFold _ 1 _ hg0
  have htoksF : ∀ j ∈ segToks (maskFold (findallPH text) 1 (text.map Seg.chr)),
      j ∈ List.range' 1 (findallPH text).length := by
    intro j hj
    rcases segToks_maskFold _ 1 _ j hj with h1 | h1
    · rw [segToks_map_chr] at h1
      simp at h1
    · rw [List.mem_range'_1]
      exact h1
  have horigood : ∀ k ∈ List.range' 1 (findallPH text).length,
      ∀ c ∈ (fun k => (findallPH text).getD (k - 1) []) k,
        c ≠ '<' ∧ c ≠ '>' := by
    intro k hk c hc
    rw [List.mem_range'_1] at hk
    have hklen : k - 1 < (findallPH text).length := by omega
    have hmem : (findallPH text).getD (k - 1) [] ∈ findallPH text := by
      rw [List.getD_eq_getElem _ [] hklen]
      exact List.getElem_mem hklen
    exact ⟨hplt _ hmem c hc, hpgt _ hmem c hc⟩
  rw [restore_fold _ _ _ hgF htoksF horigood]
  rw [expandSeg_maskFold (findallPH text) 1 horig (text.map Seg.chr)]
  exact expandSeg_map_chr _ text

/-- The masked text's distinct tokens number at most the number of regex
matches. -/
theorem masked_token_count_le (text : Text)
    (ha : ∀ c ∈ text, c ≠ '<' ∧ c ≠ '>') :
    (findallVar (mask_placeholders text).1).dedup.length
      ≤ (findallPH text).length := by
  have hchars := findallPH_chars text
  have hplt : ∀ p ∈ findallPH text, ∀ c ∈ p, c ≠ '<' :=
    fun p hp c hc => (ha c (hchars p hp c hc)).1
  have hshape := findallPH_shape text
  have hg0 : goodSeg (text.map Seg.chr) := goodSeg_map_chr ha
  have hfl0 : flattenSeg (text.map Seg.chr) = text := flattenSeg_map_chr text
  have hmask1 : (mask_placeholders text).1
      = flattenSeg (maskFold (findallPH text) 1 (text.map Seg.chr)) := by
    have hsim := maskLoop_sim (findallPH text) 1 (text.map Seg.chr) hg0
      (fun p hp => ⟨by
        obtain ⟨content, hcont⟩ := hshape p hp
        exact ⟨content ++ ['}'], hcont⟩, hplt p hp⟩)
    rw [hfl0] at hsim
    exact hsim
  have hgF : goodSeg (maskFold (findallPH text) 1 (text.map Seg.chr)) :=
    goodSeg_maskFold _ 1 _ hg0
  rw [hmask1, findallVar_flattenSeg _ hgF]
  rw [List.dedup_map_of_injective (fun a b hab => varToken_inj hab),
    List.length_map, ← List.card_toFinset]
  calc (segToks (maskFold (findallPH text) 1 (text.map Seg.chr))).toFinset.card
      ≤ (List.range' 1 (findallPH text).length).toFinset.card := by
        apply Finset.card_le_card
        intro j hj
        rw [List.mem_toFinset] at hj ⊢
        rcases segToks_maskFold _ 1 _ j hj with h1 | h1
        · rw [segToks_map_chr] at h1
          simp at h1
        · rw [List.mem_range'_1]
          exact h1
    _ ≤ (List.range' 1 (findallPH text).length).length := List.toFinset_card_le _
    _ = (findallPH text).length := List.length_range' _ _ _

end Pipeline



namespace Pipeline

/-! ### Occurrence bookkeeping for the exact token-count claim -/

theorem occursIn_of_isPrefixOf {p s : Text} (h : p.isPrefixOf s = true) :
    occursIn p s :=
  ⟨0, by simpa using h⟩

theorem occursIn_cons {p : Text} {c : Char} {w : Text} :
    occursIn p (c :: w) ↔ p.isPrefixOf (c :: w) = true ∨ occursIn p w := by
  constructor
  · rintro ⟨i, hi⟩
    match i with
    | 0 => exact Or.inl (by simpa using hi)
    | i + 1 => exact Or.inr ⟨i, by simpa using hi⟩
  · rintro (h | ⟨i, hi⟩)
    · exact ⟨0, by simpa using h⟩
    · exact ⟨i + 1, by simpa using hi⟩

theorem occursIn_append_right {p w : Text} (v : Text) (h : occursIn p w) :
    occursIn p (v ++ w) := by
  obtain ⟨i, hi⟩ := h
  refine ⟨v.length + i, ?_⟩
  rwa [List.drop_append]

/-- An occurrence cannot start inside a block none of whose characters can
begin `p`. -/
theorem occursIn_append_elim {p v w : Text} (hpne : p ≠ [])
    (hv : ∀ c ∈ v, p.head? ≠ some c) (h : occursIn p (v ++ w)) :
    occursIn p w := by
  obtain ⟨i, hi⟩ := h
  rcases Nat.lt_or_ge i v.length with hlt | hge
  · exfalso
    rw [List.drop_append_of_le_length (Nat.le_of_lt hlt)] at hi
    rw [List.drop_eq_getElem_cons hlt] at hi
    obtain ⟨p0, ptl, hp0⟩ := List.exists_cons_of_ne_nil hpne
    rw [hp0, List.cons_append, List.isPrefixOf_cons₂] at hi
    have h1 := ((Bool.and_eq_true _ _).mp hi).1
    have h2 : p0 = v[i] := beq_iff_eq.mp h1
    have h3 : p.head? = some v[i] := by rw [hp0, h2]; rfl
    exact hv v[i] (List.getElem_mem hlt) h3
  · obtain ⟨k, hk⟩ := Nat.exists_eq_add_of_le hge
    rw [hk, List.drop_append] at hi
    exact ⟨k, hi⟩

theorem wfPlaceholder_ne_nil {p : Text} (h : wfPlaceholder p) : p ≠ [] := by
  obtain ⟨x, hx, _, _⟩ := h
  rw [hx]
  simp

theorem wfPlaceholder_head {p : Text} (h : wfPlaceholder p) :
    p.head? = some '{' := by
  obtain ⟨x, hx, _, _⟩ := h
  rw [hx]
  rfl

/-- An occurrence of a brace-headed pattern skips over a `<VARj>` token. -/
theorem occursIn_varToken_elim {p : Text} {j : Nat} {w : Text}
    (hpne : p ≠ []) (hph : p.head? = some '{')
    (h : occursIn p (varToken j ++ w)) : occursIn p w := by
  refine occursIn_append_elim hpne ?_ h
  intro c hc hh
  rw [hph] at hh
  have : ('{' : Char) = c := by
    injection hh
  exact (varToken_no_brace j c hc).1 this.symm

/-- Strings over an alphabet avoiding a stop character, each followed by
the stop character, are prefix-compatible only when equal. -/
theorem front_eq_of_stop {stop : Char} :
    ∀ (x y w : Text), (∀ c ∈ x, c ≠ stop) → (∀ c ∈ y, c ≠ stop) →
      (x ++ [stop]).isPrefixOf (y ++ stop :: w) = true → x = y := by
  intro x
  induction x with
  | nil =>
    intro y w _ h2 h
    cases y with
    | nil => rfl
    | cons d y' =>
      rw [List.nil_append, List.cons_append, List.isPrefixOf_cons₂] at h
      have hd := ((Bool.and_eq_true _ _).mp h).1
      exact absurd (beq_iff_eq.mp hd).symm (h2 d (by simp))
  | cons a x' ih =>
    intro y w h1 h2 h
    cases y with
    | nil =>
      rw [List.cons_append, List.nil_append, List.isPrefixOf_cons₂] at h
      have ha := ((Bool.and_eq_true _ _).mp h).1
      exact absurd (beq_iff_eq.mp ha) (h1 a (by simp))
    | cons d y' =>
      rw [List.cons_append, List.cons_append, List.isPrefixOf_cons₂] at h
      obtain ⟨had, hrec⟩ := (Bool.and_eq_true _ _).mp h
      have : a = d := beq_iff_eq.mp had
      subst this
      rw [ih y' w (fun c hc => h1 c (by simp [hc]))
        (fun c hc => h2 c (by simp [hc])) hrec]

/-- Two well-formed placeholders starting at the same position coincide. -/
theorem wf_isPrefixOf_eq {p q : Text} (hp : wfPlaceholder p)
    (hq : wfPlaceholder q) (w : Text)
    (h : p.isPrefixOf (q ++ w) = true) : p = q := by
  obtain ⟨x, hx, _, hxr⟩ := hp
  obtain ⟨y, hy, _, hyr⟩ := hq
  have hx2 : p = '{' :: (x ++ ['}']) := by rw [hx]; rfl
  have hy2 : q ++ w = '{' :: (y ++ '}' :: w) := by
    rw [hy, List.append_assoc]
    rfl
  rw [hx2] at h ⊢
  rw [hy2] at h
  rw [List.isPrefixOf_cons₂] at h
  have h2 := ((Bool.and_eq_true _ _).mp h).2
  have hxy : x = y := front_eq_of_stop x y w hxr hyr h2
  rw [hxy, hy]
  rfl

/-- A position strictly inside a well-formed placeholder never holds `{`. -/
theorem wf_getElem_ne_lbrace {q : Text} (hq : wfPlaceholder q) {i : Nat}
    (h1 : 0 < i) (h2 : i < q.length) : q[i] ≠ '{' := by
  obtain ⟨y, hy, hyl, hyr⟩ := hq
  have hy2 : q = '{' :: (y ++ ['}']) := by rw [hy]; rfl
  obtain ⟨j, rfl⟩ : ∃ j, i = j + 1 := ⟨i - 1, by omega⟩
  intro hc
  have hlen : j < (y ++ ['}']).length := by
    rw [hy2] at h2
    simp only [List.length_cons] at h2
    omega
  have hgi : q[j + 1] = (y ++ ['}']).get ⟨j, hlen⟩ := by
    rw [List.getElem_of_eq hy2]
    exact List.getElem_cons_succ _ _ _ _
  have hmem : (y ++ ['}']).get ⟨j, hlen⟩ ∈ y ++ ['}'] := List.get_mem _ _ hlen
  rw [hgi] at hc
  rcases List.mem_append.mp hmem with hm | hm
  · exact hyl _ hm (hc ▸ rfl)
  · rw [List.mem_singleton] at hm
    rw [hm] at hc
    exact absurd hc (by decide)

/-- An occurrence of a well-formed placeholder in `q ++ w`, for a distinct
well-formed `q`, lies in `w`. -/
theorem occursIn_wf_append_elim {p q : Text} (hp : wfPlaceholder p)
    (hq : wfPlaceholder q) (hne : p ≠ q) {w : Text}
    (h : occursIn p (q ++ w)) : occursIn p w := by
  obtain ⟨i, hi⟩ := h
  rcases Nat.lt_or_ge i q.length with hlt | hge
  · match i with
    | 0 =>
      rw [List.drop_zero] at hi
      exact absurd (wf_isPrefixOf_eq hp hq w hi) hne
    | i + 1 =>
      exfalso
      rw [List.drop_append_of_le_length (Nat.le_of_lt hlt)] at hi
      rw [List.drop_eq_getElem_cons hlt] at hi
      obtain ⟨x, hx, _, _⟩ := hp
      have hx2 : p = '{' :: (x ++ ['}']) := by rw [hx]; rfl
      rw [hx2, List.cons_append, List.isPrefixOf_cons₂] at hi
      have h1 := ((Bool.and_eq_true _ _).mp hi).1
      have h2 : ('{' : Char) = q[i + 1] := beq_iff_eq.mp h1
      exact wf_getElem_ne_lbrace hq (by omega) hlt h2.symm
  · obtain ⟨k, hk⟩ := Nat.exists_eq_add_of_le hge
    rw [hk, List.drop_append] at hi
    exact ⟨k, hi⟩

end Pipeline

namespace Pipeline

/-! ### Every match reported by the scanner occurs in the text -/

theorem isPrefixOf_append_self : ∀ (x y : Text), x.isPrefixOf (x ++ y) = true := by
  intro x
  induction x with
  | nil => intro y; simp [List.isPrefixOf]
  | cons a x ih =>
    intro y
    rw [List.cons_append, List.isPrefixOf_cons₂]
    simp [ih y]

/-- A successful scan at a position decomposes the scanned string as the
match followed by the remainder. -/
theorem isPlaceholderAt_eq {s t after : Text}
    (h : isPlaceholderAt s = some (t, after)) : s = t ++ after := by
  match s with
  | [] => simp [isPlaceholderAt] at h
  | c0 :: rest =>
    rw [isPlaceholderAt_cons] at h
    by_cases hc : c0 = '{'
    · rw [if_pos hc] at h
      by_cases hcond : rest.takeWhile (fun d => d ≠ '}') ≠ [] ∧
          (rest.drop (rest.takeWhile (fun d => d ≠ '}')).length).head? = some '}'
      · rw [if_pos hcond] at h
        simp only [Option.some.injEq, Prod.mk.injEq] at h
        set n := (rest.takeWhile (fun d => d ≠ '}')).length with hn
        obtain ⟨d, tl, hdtl⟩ : ∃ d tl, rest.drop n = d :: tl := by
          cases hdr : rest.drop n with
          | nil => rw [hdr] at hcond; simp at hcond
          | cons d tl => exact ⟨d, tl, rfl⟩
        have hd : d = '}' := by
          have h2 := hcond.2
          rw [hdtl] at h2
          simpa using h2
        have hafter : after = tl := by
          rw [← h.2, hdtl]
          rfl
        have htake : rest.take n = rest.takeWhile (fun d => d ≠ '}') := by
          have hpre : rest.takeWhile (fun d => d ≠ '}') <+: rest :=
            List.takeWhile_prefix _
          exact (List.prefix_iff_eq_take.mp hpre).symm
        have hr : rest = rest.takeWhile (fun d => d ≠ '}') ++ '}' :: tl := by
          conv_lhs => rw [← List.take_append_drop n rest]
          rw [htake, hdtl, hd]
        rw [hc, ← h.1, hafter]
        conv_lhs => rw [hr]
        simp
      · rw [if_neg hcond] at h
        simp at h
    · rw [if_neg hc] at h
      simp at h

/-- Every placeholder match found by the scanner occurs in the scanned
text. -/
theorem findallPH_occurs :
    ∀ s : Text, ∀ x ∈ findallPH s, occursIn x s := by
  suffices H : ∀ (n : Nat) (s : Text), s.length ≤ n →
      ∀ x ∈ findallPH s, occursIn x s by
    intro s
    exact H s.length s (le_refl _)
  intro n
  induction n with
  | zero =>
    intro s h x hx
    have hs : s = [] := List.eq_nil_of_length_eq_zero (Nat.le_zero.mp h)
    subst hs
    simp [findallPH_nil] at hx
  | succ n ih =>
    intro s h x hx
    match s with
    | [] => simp [findallPH_nil] at hx
    | c0 :: rest =>
      simp only [List.length_cons] at h
      rw [findallPH_cons] at hx
      cases hat : isPlaceholderAt (c0 :: rest) with
      | some pr =>
        obtain ⟨t, after⟩ := pr
        rw [hat] at hx
        have hshrink := isPlaceholderAt_shrinks hat
        simp only [List.length_cons] at hshrink
        have heq := isPlaceholderAt_eq hat
        rcases List.mem_cons.mp hx with h1 | h1
        · subst h1
          rw [heq]
          refine ⟨0, ?_⟩
          rw [List.drop_zero]
          exact isPrefixOf_append_self _ _
        · have hocc := ih after (by omega) x h1
          rw [heq]
          exact occursIn_append_right t hocc
      | none =>
        rw [hat] at hx
        have hocc := ih rest (by omega) x hx
        exact occursIn_cons.mpr (Or.inr hocc)

/-- The content of a scanned match never contains `}` (the scan stops at
the first closing brace). -/
theorem isPlaceholderAt_shape_ne {s t after : Text}
    (h : isPlaceholderAt s = some (t, after)) :
    ∃ content, t = '{' :: content ++ ['}'] ∧ ∀ c ∈ content, c ≠ '}' := by
  match s with
  | [] => simp [isPlaceholderAt] at h
  | c0 :: rest =>
    rw [isPlaceholderAt_cons] at h
    by_cases hc : c0 = '{'
    · rw [if_pos hc] at h
      by_cases hcond : rest.takeWhile (fun d => d ≠ '}') ≠ [] ∧
          (rest.drop (rest.takeWhile (fun d => d ≠ '}')).length).head? = some '}'
      · rw [if_pos hcond] at h
        simp only [Option.some.injEq, Prod.mk.injEq] at h
        refine ⟨rest.takeWhile (fun d => d ≠ '}'), h.1.symm, ?_⟩
        intro c2 hc2
        have := List.mem_takeWhile_imp hc2
        simpa using this
      · rw [if_neg hcond] at h
        simp at h
    · rw [if_neg hc] at h
      simp at h

theorem findallPH_shape_ne :
    ∀ s : Text, ∀ x ∈ findallPH s,
      ∃ content, x = '{' :: content ++ ['}'] ∧ ∀ c ∈ content, c ≠ '}' := by
  suffices H : ∀ (n : Nat) (s : Text), s.length ≤ n →
      ∀ x ∈ findallPH s,
        ∃ content, x = '{' :: content ++ ['}'] ∧ ∀ c ∈ content, c ≠ '}' by
    intro s
    exact H s.length s (le_refl _)
  intro n
  induction n with
  | zero =>
    intro s h x hx
    have hs : s = [] := List.eq_nil_of_length_eq_zero (Nat.le_zero.mp h)
    subst hs
    simp [findallPH_nil] at hx
  | succ n ih =>
    intro s h x hx
    match s with
    | [] => simp [findallPH_nil] at hx
    | c0 :: rest =>
      simp only [List.length_cons] at h
      rw [findallPH_cons] at hx
      cases hat : isPlaceholderAt (c0 :: rest) with
      | some pr =>
        obtain ⟨t, after⟩ := pr
        rw [hat] at hx
        have hshrink := isPlaceholderAt_shrinks hat
        simp only [List.length_cons] at hshrink
        rcases List.mem_cons.mp hx with h1 | h1
        · subst h1
          exact isPlaceholderAt_shape_ne hat
        · exact ih after (by omega) x h1
      | none =>
        rw [hat] at hx
        exact ih rest (by omega) x hx

/-- When no match's interior contains a second `{`, every match is a
well-formed placeholder. -/
theorem wf_of_findallPH {text : Text}
    (hint : ∀ p ∈ findallPH text, ∀ c ∈ p.drop 1, c ≠ '{')
    {p : Text} (hp : p ∈ findallPH text) : wfPlaceholder p := by
  obtain ⟨content, hsh, hnr⟩ := findallPH_shape_ne text p hp
  refine ⟨content, hsh, ?_, hnr⟩
  intro c hc
  apply hint p hp
  rw [hsh]
  show c ∈ content ++ ['}']
  exact List.mem_append_left _ hc

end Pipeline

namespace Pipeline

/-! ### How `maskItems` interacts with occurrences of other placeholders -/

/-- A `<`-free string that is a prefix of a token-headed string is empty. -/
theorem isPrefixOf_varToken_append_eq_nil {u : Text} (hu : ∀ c ∈ u, c ≠ '<')
    {j : Nat} {X : Text} (h : u.isPrefixOf (varToken j ++ X) = true) :
    u = [] := by
  cases u with
  | nil => rfl
  | cons a u' =>
    exfalso
    have hv : varToken j ++ X
        = '<' :: (('V' :: 'A' :: 'R' :: natDigits j ++ ['>']) ++ X) := by
      rw [varToken_eq_cons]
      rfl
    rw [hv, List.isPrefixOf_cons₂] at h
    have ha := ((Bool.and_eq_true _ _).mp h).1
    exact hu a (by simp) (beq_iff_eq.mp ha)

/-- A `<`-free prefix of a masked flattening was already a prefix before
masking (replacement only inserts token text, which starts with `<`). -/
theorem prefixOf_flatten_maskItems :
    ∀ (ms : List Seg) (u : Text), (∀ c ∈ u, c ≠ '<') → ∀ (p : Text) (i : Nat),
      u.isPrefixOf (flattenSeg (maskItems p i ms)) = true →
      u.isPrefixOf (flattenSeg ms) = true := by
  suffices H : ∀ (n : Nat) (ms : List Seg), ms.length ≤ n →
      ∀ (u : Text), (∀ c ∈ u, c ≠ '<') → ∀ (p : Text) (i : Nat),
        u.isPrefixOf (flattenSeg (maskItems p i ms)) = true →
        u.isPrefixOf (flattenSeg ms) = true by
    intro ms
    exact H ms.length ms (le_refl _)
  intro n
  induction n with
  | zero =>
    intro ms h u hu p i hpre
    have hms : ms = [] := List.eq_nil_of_length_eq_zero (Nat.le_zero.mp h)
    subst hms
    rwa [maskItems_nil] at hpre
  | succ n ih =>
    intro ms h u hu p i hpre
    match ms with
    | [] => rwa [maskItems_nil] at hpre
    | s :: rest =>
      simp only [List.length_cons] at h
      rw [maskItems_cons] at hpre
      by_cases hfire : p ≠ [] ∧ (p.map Seg.chr).isPrefixOf (s :: rest) = true
      · rw [if_pos hfire] at hpre
        have hu0 : u = [] := isPrefixOf_varToken_append_eq_nil hu (j := i) hpre
        subst hu0
        simp [List.isPrefixOf]
      · rw [if_neg hfire] at hpre
        cases s with
        | chr c =>
          cases u with
          | nil => simp [List.isPrefixOf]
          | cons a u' =>
            have hpre' : (a :: u').isPrefixOf
                (c :: flattenSeg (maskItems p i rest)) = true := hpre
            rw [List.isPrefixOf_cons₂] at hpre'
            obtain ⟨hac, htl⟩ := (Bool.and_eq_true _ _).mp hpre'
            have htl' := ih rest (by omega) u'
              (fun d hd => hu d (by simp [hd])) p i htl
            show (a :: u').isPrefixOf (c :: flattenSeg rest) = true
            rw [List.isPrefixOf_cons₂]
            exact (Bool.and_eq_true _ _).mpr ⟨hac, htl'⟩
        | tok j =>
          have hu0 : u = [] :=
            isPrefixOf_varToken_append_eq_nil hu (j := j) hpre
          subst hu0
          simp [List.isPrefixOf]

/-- `maskItems` copies a run of characters none of which is `{` (the
pattern's head), leaving it untouched. -/
theorem maskItems_copy_chr {p : Text} {ph : Text} (hp : p = '{' :: ph)
    (i : Nat) :
    ∀ (u : Text), (∀ c ∈ u, c ≠ '{') → ∀ (ms : List Seg),
      maskItems p i (u.map Seg.chr ++ ms) = u.map Seg.chr ++ maskItems p i ms := by
  intro u
  induction u with
  | nil => intro _ ms; rfl
  | cons a u' ih =>
    intro hu ms
    show maskItems p i (Seg.chr a :: (u'.map Seg.chr ++ ms)) = _
    rw [maskItems_cons]
    have hnofire : ¬ (p ≠ [] ∧
        (p.map Seg.chr).isPrefixOf (Seg.chr a :: (u'.map Seg.chr ++ ms)) = true) := by
      rintro ⟨hpne, hpref⟩
      rw [hp, List.map_cons, List.isPrefixOf_cons₂] at hpref
      have h1 := ((Bool.and_eq_true _ _).mp hpref).1
      have h2 : Seg.chr '{' = Seg.chr a := beq_iff_eq.mp h1
      have h3 : '{' = a := by injection h2
      exact hu a (by simp) h3.symm
    rw [if_neg hnofire]
    rw [ih (fun c hc => hu c (by simp [hc])) ms]
    rfl

end Pipeline

namespace Pipeline

/-- Masking never creates a new occurrence of a brace-headed `<`-free
pattern: an occurrence after `maskItems` was already there before. -/
theorem occursIn_flatten_maskItems_rev {q : Text} (hq0 : q ≠ [])
    (hqh : q.head? = some '{') (hqlt : ∀ c ∈ q, c ≠ '<') :
    ∀ (ms : List Seg) (p : Text) (i : Nat),
      occursIn q (flattenSeg (maskItems p i ms)) →
      occursIn q (flattenSeg ms) := by
  suffices H : ∀ (n : Nat) (ms : List Seg), ms.length ≤ n →
      ∀ (p : Text) (i : Nat),
        occursIn q (flattenSeg (maskItems p i ms)) →
        occursIn q (flattenSeg ms) by
    intro ms
    exact H ms.length ms (le_refl _)
  intro n
  induction n with
  | zero =>
    intro ms h p i hocc
    have hms : ms = [] := List.eq_nil_of_length_eq_zero (Nat.le_zero.mp h)
    subst hms
    rwa [maskItems_nil] at hocc
  | succ n ih =>
    intro ms h p i hocc
    match ms with
    | [] => rwa [maskItems_nil] at hocc
    | s :: rest =>
      simp only [List.length_cons] at h
      rw [maskItems_cons] at hocc
      by_cases hfire : p ≠ [] ∧ (p.map Seg.chr).isPrefixOf (s :: rest) = true
      · rw [if_pos hfire] at hocc
        have hfl : flattenSeg (Seg.tok i ::
              maskItems p i ((s :: rest).drop p.length))
            = varToken i ++ flattenSeg (maskItems p i ((s :: rest).drop p.length)) := rfl
        rw [hfl] at hocc
        have hocc2 := occursIn_varToken_elim hq0 hqh hocc
        have hlen : ((s :: rest).drop p.length).length ≤ n := by
          simp only [List.length_drop, List.length_cons]
          have hp1 : 1 ≤ p.length := List.length_pos.mpr hfire.1
          omega
        have hocc3 := ih _ hlen p i hocc2
        have hres : occursIn q (flattenSeg ((s :: rest).take p.length)
            ++ flattenSeg ((s :: rest).drop p.length)) :=
          occursIn_append_right _ hocc3
        rw [← flattenSeg_append, List.take_append_drop] at hres
        exact hres
      · rw [if_neg hfire] at hocc
        cases s with
        | chr c =>
          have hfl : flattenSeg (Seg.chr c :: maskItems p i rest)
              = c :: flattenSeg (maskItems p i rest) := rfl
          rw [hfl] at hocc
          rcases occursIn_cons.mp hocc with hpre | htail
          · obtain ⟨qh, qtl, hqeq⟩ := List.exists_cons_of_ne_nil hq0
            rw [hqeq, List.isPrefixOf_cons₂] at hpre
            obtain ⟨h1, h2⟩ := (Bool.and_eq_true _ _).mp hpre
            have h2' := prefixOf_flatten_maskItems rest qtl
              (fun d hd => hqlt d (by rw [hqeq]; simp [hd])) p i h2
            show occursIn q (c :: flattenSeg rest)
            refine occursIn_cons.mpr (Or.inl ?_)
            rw [hqeq, List.isPrefixOf_cons₂]
            exact (Bool.and_eq_true _ _).mpr ⟨h1, h2'⟩
          · have := ih rest (by omega) p i htail
            show occursIn q (c :: flattenSeg rest)
            exact occursIn_cons.mpr (Or.inr this)
        | tok j =>
          have hfl : flattenSeg (Seg.tok j :: maskItems p i rest)
              = varToken j ++ flattenSeg (maskItems p i rest) := rfl
          rw [hfl] at hocc
          have hocc2 := occursIn_varToken_elim hq0 hqh hocc
          have hocc3 := ih rest (by omega) p i hocc2
          show occursIn q (varToken j ++ flattenSeg rest)
          exact occursIn_append_right _ hocc3

/-- If the pattern does not occur in the denoted string, `maskItems` is the
identity. -/
theorem maskItems_id_of_not_occurs {p : Text} (hlt : ∀ c ∈ p, c ≠ '<') :
    ∀ (ms : List Seg) (i : Nat), ¬ occursIn p (flattenSeg ms) →
      maskItems p i ms = ms := by
  suffices H : ∀ (n : Nat) (ms : List Seg), ms.length ≤ n → ∀ (i : Nat),
      ¬ occursIn p (flattenSeg ms) → maskItems p i ms = ms by
    intro ms
    exact H ms.length ms (le_refl _)
  intro n
  induction n with
  | zero =>
    intro ms h i _
    have hms : ms = [] := List.eq_nil_of_length_eq_zero (Nat.le_zero.mp h)
    subst hms
    rw [maskItems_nil]
  | succ n ih =>
    intro ms h i hnot
    match ms with
    | [] => rw [maskItems_nil]
    | s :: rest =>
      simp only [List.length_cons] at h
      rw [maskItems_cons]
      by_cases hfire : p ≠ [] ∧ (p.map Seg.chr).isPrefixOf (s :: rest) = true
      · exfalso
        apply hnot
        have hpf := hfire.2
        rw [← isPrefixOf_flattenSeg hlt (s :: rest)] at hpf
        exact ⟨0, by simpa using hpf⟩
      · rw [if_neg hfire]
        cases s with
        | chr c =>
          have hnr : ¬ occursIn p (flattenSeg rest) := by
            intro hc
            apply hnot
            show occursIn p (c :: flattenSeg rest)
            exact occursIn_cons.mpr (Or.inr hc)
          rw [ih rest (by omega) i hnr]
        | tok j =>
          have hnr : ¬ occursIn p (flattenSeg rest) := by
            intro hc
            apply hnot
            show occursIn p (varToken j ++ flattenSeg rest)
            exact occursIn_append_right _ hc
          rw [ih rest (by omega) i hnr]

/-- After `maskItems` has replaced every occurrence of a well-formed
placeholder, the placeholder no longer occurs in the denoted string. -/
theorem not_occursIn_maskItems {p : Text} (hp : wfPlaceholder p)
    (hlt : ∀ c ∈ p, c ≠ '<') :
    ∀ (ms : List Seg) (i : Nat),
      ¬ occursIn p (flattenSeg (maskItems p i ms)) := by
  have hp0 : p ≠ [] := wfPlaceholder_ne_nil hp
  have hph : p.head? = some '{' := wfPlaceholder_head hp
  suffices H : ∀ (n : Nat) (ms : List Seg), ms.length ≤ n → ∀ (i : Nat),
      ¬ occursIn p (flattenSeg (maskItems p i ms)) by
    intro ms
    exact H ms.length ms (le_refl _)
  intro n
  induction n with
  | zero =>
    intro ms h i hocc
    have hms : ms = [] := List.eq_nil_of_length_eq_zero (Nat.le_zero.mp h)
    subst hms
    rw [maskItems_nil] at hocc
    obtain ⟨k, hk⟩ := hocc
    cases p with
    | nil => exact hp0 rfl
    | cons a l =>
      have hk' : (a :: l).isPrefixOf (([] : Text).drop k) = true := hk
      rw [List.drop_nil] at hk'
      simp [List.isPrefixOf] at hk'
  | succ n ih =>
    intro ms h i hocc
    match ms with
    | [] =>
      rw [maskItems_nil] at hocc
      obtain ⟨k, hk⟩ := hocc
      cases p with
      | nil => exact hp0 rfl
      | cons a l =>
        have hk' : (a :: l).isPrefixOf (([] : Text).drop k) = true := hk
        rw [List.drop_nil] at hk'
        simp [List.isPrefixOf] at hk'
    | s :: rest =>
      simp only [List.length_cons] at h
      rw [maskItems_cons] at hocc
      by_cases hfire : p ≠ [] ∧ (p.map Seg.chr).isPrefixOf (s :: rest) = true
      · rw [if_pos hfire] at hocc
        have hfl : flattenSeg (Seg.tok i ::
              maskItems p i ((s :: rest).drop p.length))
            = varToken i ++ flattenSeg (maskItems p i ((s :: rest).drop p.length)) := rfl
        rw [hfl] at hocc
        have hocc2 := occursIn_varToken_elim hp0 hph hocc
        have hlen : ((s :: rest).drop p.length).length ≤ n := by
          simp only [List.length_drop, List.length_cons]
          have hp1 : 1 ≤ p.length := List.length_pos.mpr hp0
          omega
        exact ih _ hlen i hocc2
      · rw [if_neg hfire] at hocc
        cases s with
        | chr c =>
          have hfl : flattenSeg (Seg.chr c :: maskItems p i rest)
              = c :: flattenSeg (maskItems p i rest) := rfl
          rw [hfl] at hocc
          rcases occursIn_cons.mp hocc with hpre | htail
          · obtain ⟨x, hx, hxl, hxr⟩ := hp
            have hx2 : p = '{' :: (x ++ ['}']) := by rw [hx]; rfl
            nth_rewrite 1 [hx2] at hpre
            rw [List.isPrefixOf_cons₂] at hpre
            obtain ⟨h1, h2⟩ := (Bool.and_eq_true _ _).mp hpre
            have h2' := prefixOf_flatten_maskItems rest (x ++ ['}'])
              (fun d hd => hlt d (by rw [hx2]; simp [hd])) p i h2
            have hpfx : p.isPrefixOf (flattenSeg (Seg.chr c :: rest)) = true := by
              show p.isPrefixOf (c :: flattenSeg rest) = true
              rw [hx2, List.isPrefixOf_cons₂]
              exact (Bool.and_eq_true _ _).mpr ⟨h1, h2'⟩
            rw [isPrefixOf_flattenSeg hlt] at hpfx
            exact hfire ⟨hp0, hpfx⟩
          · exact ih rest (by omega) i htail
        | tok j =>
          have hfl : flattenSeg (Seg.tok j :: maskItems p i rest)
              = varToken j ++ flattenSeg (maskItems p i rest) := rfl
          rw [hfl] at hocc
          exact ih rest (by omega) i (occursIn_varToken_elim hp0 hph hocc)

end Pipeline

namespace Pipeline

/-- Replacing a *different* well-formed placeholder preserves occurrences:
distinct well-formed placeholders cannot overlap. -/
theorem occursIn_flatten_maskItems {q p : Text} (hq : wfPlaceholder q)
    (hp : wfPlaceholder p) (hne : q ≠ p) (hqlt : ∀ c ∈ q, c ≠ '<') :
    ∀ (ms : List Seg) (i : Nat),
      occursIn q (flattenSeg ms) →
      occursIn q (flattenSeg (maskItems p i ms)) := by
  have hq0 : q ≠ [] := wfPlaceholder_ne_nil hq
  have hqc := hq
  obtain ⟨x, hx, hxl, hxr⟩ := hqc
  have hx2 : q = '{' :: (x ++ ['}']) := by rw [hx]; rfl
  obtain ⟨y, hy, hyl, hyr⟩ := hp
  have hy2 : p = '{' :: (y ++ ['}']) := by rw [hy]; rfl
  have hpwf : wfPlaceholder p := ⟨y, hy, hyl, hyr⟩
  suffices H : ∀ (n : Nat) (ms : List Seg), ms.length ≤ n → ∀ (i : Nat),
      occursIn q (flattenSeg ms) →
      occursIn q (flattenSeg (maskItems p i ms)) by
    intro ms
    exact H ms.length ms (le_refl _)
  intro n
  induction n with
  | zero =>
    intro ms h i hocc
    have hms : ms = [] := List.eq_nil_of_length_eq_zero (Nat.le_zero.mp h)
    subst hms
    rwa [maskItems_nil]
  | succ n ih =>
    intro ms h i hocc
    match ms with
    | [] => rwa [maskItems_nil]
    | s :: rest =>
      simp only [List.length_cons] at h
      rw [maskItems_cons]
      by_cases hfire : p ≠ [] ∧ (p.map Seg.chr).isPrefixOf (s :: rest) = true
      · rw [if_pos hfire]
        have hppre : (p.map Seg.chr) <+: (s :: rest) :=
          List.isPrefixOf_iff_prefix.mp hfire.2
        obtain ⟨tl, htl⟩ := hppre
        have hdrop : (s :: rest).drop p.length = tl := by
          rw [← htl]
          have hlm : p.length = (p.map Seg.chr).length :=
            (List.length_map _ _).symm
          rw [hlm, List.drop_left]
        have hlen : tl.length ≤ n := by
          have hlen2 := congrArg List.length htl
          simp only [List.length_append, List.length_map,
            List.length_cons] at hlen2
          have hp1 : 1 ≤ p.length := List.length_pos.mpr hfire.1
          omega
        have hocc' : occursIn q (flattenSeg tl) := by
          rw [← htl, flattenSeg_append, flattenSeg_map_chr] at hocc
          exact occursIn_wf_append_elim hq hpwf hne hocc
        have hstep := ih tl hlen i hocc'
        rw [hdrop]
        show occursIn q (varToken i ++ flattenSeg (maskItems p i tl))
        exact occursIn_append_right _ hstep
      · rw [if_neg hfire]
        cases s with
        | chr c =>
          have hfl0 : flattenSeg (Seg.chr c :: rest) = c :: flattenSeg rest := rfl
          rw [hfl0] at hocc
          rcases occursIn_cons.mp hocc with hpre | htail
          · nth_rewrite 1 [hx2] at hpre
            rw [List.isPrefixOf_cons₂] at hpre
            obtain ⟨h1, h2⟩ := (Bool.and_eq_true _ _).mp hpre
            have h2' : ((x ++ ['}']).map Seg.chr).isPrefixOf rest = true := by
              rw [← isPrefixOf_flattenSeg
                (fun d hd => hqlt d (by rw [hx2]; simp [hd]))]
              exact h2
            obtain ⟨tl, htl⟩ := List.isPrefixOf_iff_prefix.mp h2'
            have hchars : ∀ c2 ∈ x ++ ['}'], c2 ≠ '{' := by
              intro c2 hc2
              rcases List.mem_append.mp hc2 with hm | hm
              · exact hxl c2 hm
              · rw [List.mem_singleton] at hm
                subst hm
                decide
            have hcopy : maskItems p i rest
                = (x ++ ['}']).map Seg.chr ++ maskItems p i tl := by
              rw [← htl]
              exact maskItems_copy_chr hy2 i (x ++ ['}']) hchars tl
            show occursIn q (c :: flattenSeg (maskItems p i rest))
            rw [hcopy, flattenSeg_append, flattenSeg_map_chr]
            refine occursIn_cons.mpr (Or.inl ?_)
            rw [hx2, List.isPrefixOf_cons₂]
            refine (Bool.and_eq_true _ _).mpr ⟨h1, ?_⟩
            exact isPrefixOf_append_self _ _
          · have := ih rest (by omega) i htail
            show occursIn q (c :: flattenSeg (maskItems p i rest))
            exact occursIn_cons.mpr (Or.inr this)
        | tok j =>
          have hfl0 : flattenSeg (Seg.tok j :: rest)
              = varToken j ++ flattenSeg rest := rfl
          rw [hfl0] at hocc
          have hocc2 := occursIn_varToken_elim hq0 (wfPlaceholder_head hq) hocc
          have := ih rest (by omega) i hocc2
          show occursIn q (varToken j ++ flattenSeg (maskItems p i rest))
          exact occursIn_append_right _ this

/-- If the placeholder occurs in the denoted string, `maskItems` fires at
least once, so the fresh token index appears among the result's tokens. -/
theorem mem_segToks_maskItems {p : Text} (hp : wfPlaceholder p)
    (hlt : ∀ c ∈ p, c ≠ '<') :
    ∀ (ms : List Seg) (i : Nat), occursIn p (flattenSeg ms) →
      i ∈ segToks (maskItems p i ms) := by
  have hp0 : p ≠ [] := wfPlaceholder_ne_nil hp
  have hph : p.head? = some '{' := wfPlaceholder_head hp
  suffices H : ∀ (n : Nat) (ms : List Seg), ms.length ≤ n → ∀ (i : Nat),
      occursIn p (flattenSeg ms) → i ∈ segToks (maskItems p i ms) by
    intro ms
    exact H ms.length ms (le_refl _)
  intro n
  induction n with
  | zero =>
    intro ms h i hocc
    have hms : ms = [] := List.eq_nil_of_length_eq_zero (Nat.le_zero.mp h)
    subst hms
    obtain ⟨k, hk⟩ := hocc
    cases p with
    | nil => exact absurd rfl hp0
    | cons a l =>
      have hk' : (a :: l).isPrefixOf (([] : Text).drop k) = true := hk
      rw [List.drop_nil] at hk'
      simp [List.isPrefixOf] at hk'
  | succ n ih =>
    intro ms h i hocc
    match ms with
    | [] =>
      obtain ⟨k, hk⟩ := hocc
      cases p with
      | nil => exact absurd rfl hp0
      | cons a l =>
        have hk' : (a :: l).isPrefixOf (([] : Text).drop k) = true := hk
        rw [List.drop_nil] at hk'
        simp [List.isPrefixOf] at hk'
    | s :: rest =>
      simp only [List.length_cons] at h
      rw [maskItems_cons]
      by_cases hfire : p ≠ [] ∧ (p.map Seg.chr).isPrefixOf (s :: rest) = true
      · rw [if_pos hfire]
        exact List.mem_cons_self _ _
      · rw [if_neg hfire]
        cases s with
        | chr c =>
          have hfl : flattenSeg (Seg.chr c :: rest) = c :: flattenSeg rest := rfl
          rw [hfl] at hocc
          rcases occursIn_cons.mp hocc with hpre | htail
          · exfalso
            have hpf : p.isPrefixOf (flattenSeg (Seg.chr c :: rest)) = true := hpre
            rw [isPrefixOf_flattenSeg hlt] at hpf
            exact hfire ⟨hp0, hpf⟩
          · exact ih rest (by omega) i htail
        | tok j =>
          have hfl : flattenSeg (Seg.tok j :: rest)
              = varToken j ++ flattenSeg rest := rfl
          rw [hfl] at hocc
          have := ih rest (by omega) i (occursIn_varToken_elim hp0 hph hocc)
          exact List.mem_cons_of_mem _ this

/-- `maskItems` never erases an existing token. -/
theorem segToks_maskItems_superset {p : Text} :
    ∀ (ms : List Seg) (i j : Nat), j ∈ segToks ms →
      j ∈ segToks (maskItems p i ms) := by
  suffices H : ∀ (n : Nat) (ms : List Seg), ms.length ≤ n → ∀ (i j : Nat),
      j ∈ segToks ms → j ∈ segToks (maskItems p i ms) by
    intro ms
    exact H ms.length ms (le_refl _)
  intro n
  induction n with
  | zero =>
    intro ms h i j hj
    have hms : ms = [] := List.eq_nil_of_length_eq_zero (Nat.le_zero.mp h)
    subst hms
    simp [segToks] at hj
  | succ n ih =>
    intro ms h i j hj
    match ms with
    | [] => simp [segToks] at hj
    | s :: rest =>
      simp only [List.length_cons] at h
      rw [maskItems_cons]
      by_cases hfire : p ≠ [] ∧ (p.map Seg.chr).isPrefixOf (s :: rest) = true
      · rw [if_pos hfire]
        have hppre : (p.map Seg.chr) <+: (s :: rest) :=
          List.isPrefixOf_iff_prefix.mp hfire.2
        obtain ⟨tl, htl⟩ := hppre
        have hdrop : (s :: rest).drop p.length = tl := by
          rw [← htl]
          have hlm : p.length = (p.map Seg.chr).length :=
            (List.length_map _ _).symm
          rw [hlm, List.drop_left]
        have hlen : tl.length ≤ n := by
          have hlen2 := congrArg List.length htl
          simp only [List.length_append, List.length_map,
            List.length_cons] at hlen2
          have hp1 : 1 ≤ p.length := List.length_pos.mpr hfire.1
          omega
        have hj' : j ∈ segToks tl := by
          rw [← htl, segToks_append, segToks_map_chr] at hj
          simpa using hj
        rw [hdrop]
        exact List.mem_cons_of_mem _ (ih tl hlen i j hj')
      · rw [if_neg hfire]
        cases s with
        | chr c =>
          have hj' : j ∈ segToks rest := hj
          exact ih rest (by omega) i j hj'
        | tok k =>
          have hj' : j = k ∨ j ∈ segToks rest := by
            have hjk : j ∈ k :: segToks rest := hj
            exact List.mem_cons.mp hjk
          rcases hj' with h1 | h1
          · subst h1
            exact List.mem_cons_self _ _
          · exact List.mem_cons_of_mem _ (ih rest (by omega) i j h1)

end Pipeline

namespace Pipeline

/-- Exact characterization of the tokens produced by the masking loop: the
token `i + m` appears iff the `m`-th placeholder occurs in the string and
no earlier placeholder in the list has the same value. -/
theorem segToks_maskFold_iff :
    ∀ (ps : List Text), (∀ p ∈ ps, wfPlaceholder p ∧ ∀ c ∈ p, c ≠ '<') →
    ∀ (i : Nat) (ms : List Seg), (∀ k ∈ segToks ms, k < i) → ∀ (j : Nat),
      (j ∈ segToks (maskFold ps i ms) ↔
        j ∈ segToks ms ∨
        ∃ m, m < ps.length ∧ j = i + m ∧
          occursIn (ps.getD m []) (flattenSeg ms) ∧
          ∀ m', m' < m → ps.getD m' [] ≠ ps.getD m []) := by
  intro ps
  induction ps with
  | nil =>
    intro _ i ms _ j
    show j ∈ segToks ms ↔ _
    constructor
    · exact fun hmem => Or.inl hmem
    · rintro (hmem | ⟨m, hm, _⟩)
      · exact hmem
      · exact absurd hm (by simp)
  | cons p ps ih =>
    intro hps i ms hfresh j
    have hpwf : wfPlaceholder p := (hps p (by simp)).1
    have hplt : ∀ c ∈ p, c ≠ '<' := (hps p (by simp)).2
    have hp0 : p ≠ [] := wfPlaceholder_ne_nil hpwf
    have hfresh' : ∀ k ∈ segToks (maskItems p i ms), k < i + 1 := by
      intro k hk
      rcases segToks_maskItems ms k hk with h1 | h1
      · omega
      · have := hfresh k h1
        omega
    have hps' : ∀ q ∈ ps, wfPlaceholder q ∧ ∀ c ∈ q, c ≠ '<' :=
      fun q hq => hps q (by simp [hq])
    have hih := ih hps' (i + 1) (maskItems p i ms) hfresh' j
    show j ∈ segToks (maskFold ps (i + 1) (maskItems p i ms)) ↔ _
    rw [hih]
    constructor
    · rintro (h1 | ⟨m, hm, hjm, hoc, hfirst⟩)
      · rcases segToks_maskItems ms j h1 with h2 | h2
        · subst h2
          by_cases hocc : occursIn p (flattenSeg ms)
          · refine Or.inr ⟨0, by simp, by omega, hocc, ?_⟩
            intro m' hm'
            exact absurd hm' (Nat.not_lt_zero _)
          · have hid := maskItems_id_of_not_occurs hplt ms j hocc
            rw [hid] at h1
            exact Or.inl h1
        · exact Or.inl h2
      · have hqmem : ps.getD m [] ∈ ps := by
          rw [List.getD_eq_getElem _ [] hm]
          exact List.getElem_mem hm
        have hqwf := (hps' _ hqmem).1
        have hqlt := (hps' _ hqmem).2
        have hq0 := wfPlaceholder_ne_nil hqwf
        have hqh := wfPlaceholder_head hqwf
        have hrev := occursIn_flatten_maskItems_rev hq0 hqh hqlt ms p i hoc
        refine Or.inr ⟨m + 1, by simpa using Nat.succ_lt_succ hm, by omega,
          hrev, ?_⟩
        intro m' hm'
        cases m' with
        | zero =>
          intro hEq
          have hEq' : p = ps.getD m [] := hEq
          rw [← hEq'] at hoc
          exact not_occursIn_maskItems hpwf hplt ms i hoc
        | succ m'' =>
          intro hEq
          exact hfirst m'' (by omega) hEq
    · rintro (h1 | ⟨m, hm, hjm, hoc, hfirst⟩)
      · exact Or.inl (segToks_maskItems_superset ms i j h1)
      · cases m with
        | zero =>
          have hoc' : occursIn p (flattenSeg ms) := hoc
          have hmem := mem_segToks_maskItems hpwf hplt ms i hoc'
          have hji : j = i := by omega
          subst hji
          exact Or.inl hmem
        | succ m'' =>
          have hm'' : m'' < ps.length := by simpa using hm
          have hocq : occursIn (ps.getD m'' []) (flattenSeg ms) := hoc
          have hqmem : ps.getD m'' [] ∈ ps := by
            rw [List.getD_eq_getElem _ [] hm'']
            exact List.getElem_mem hm''
          have hqwf := (hps' _ hqmem).1
          have hqlt := (hps' _ hqmem).2
          have hnepq : ps.getD m'' [] ≠ p := by
            intro hEq
            exact (hfirst 0 (Nat.succ_pos _)) hEq.symm
          have hpres := occursIn_flatten_maskItems hqwf hpwf hnepq hqlt
            ms i hocq
          refine Or.inr ⟨m'', hm'', by omega, hpres, ?_⟩
          intro m' hm'
          have := hfirst (m' + 1) (by omega)
          exact this

end Pipeline

namespace Pipeline

/-- Every member of a list has a first index. -/
theorem exists_min_getD {v : Text} : ∀ {l : List Text}, v ∈ l →
    ∃ m, m < l.length ∧ l.getD m [] = v ∧
      ∀ m', m' < m → l.getD m' [] ≠ v := by
  intro l
  induction l with
  | nil => intro hv; simp at hv
  | cons a l ih =>
    intro hv
    by_cases hav : a = v
    · refine ⟨0, by simp, hav, ?_⟩
      intro m' hm'
      exact absurd hm' (Nat.not_lt_zero _)
    · have hv' : v ∈ l := by
        rcases List.mem_cons.mp hv with hva | hvl
        · exact absurd hva.symm hav
        · exact hvl
      obtain ⟨m, hm, hvm, hmin⟩ := ih hv'
      refine ⟨m + 1, by simpa using Nat.succ_lt_succ hm, hvm, ?_⟩
      intro m' hm'
      cases m' with
      | zero => exact fun hEq => hav hEq
      | succ m'' => exact hmin m'' (by omega)

/-- Exact distinct-token count: for an angle-free text whose placeholder
matches have `{`-free interiors, the masked text contains exactly as many
distinct `<VARk>` tokens as there are distinct placeholder matches. -/
theorem masked_token_count_eq (text : Text)
    (ha : ∀ c ∈ text, c ≠ '<' ∧ c ≠ '>')
    (hint : ∀ p ∈ findallPH text, ∀ c ∈ p.drop 1, c ≠ '{') :
    (findallVar (mask_placeholders text).1).dedup.length
      = (findallPH text).dedup.length := by
  have hchars := findallPH_chars text
  have hplt : ∀ p ∈ findallPH text, ∀ c ∈ p, c ≠ '<' :=
    fun p hp c hc => (ha c (hchars p hp c hc)).1
  have hshape := findallPH_shape text
  have hwf : ∀ p ∈ findallPH text, wfPlaceholder p :=
    fun p hp => wf_of_findallPH hint hp
  have hg0 : goodSeg (text.map Seg.chr) := goodSeg_map_chr ha
  have hfl0 : flattenSeg (text.map Seg.chr) = text := flattenSeg_map_chr text
  have hmask1 : (mask_placeholders text).1
      = flattenSeg (maskFold (findallPH text) 1 (text.map Seg.chr)) := by
    have hsim := maskLoop_sim (findallPH text) 1 (text.map Seg.chr) hg0
      (fun p hp => ⟨by
        obtain ⟨content, hcont⟩ := hshape p hp
        exact ⟨content ++ ['}'], hcont⟩, hplt p hp⟩)
    rw [hfl0] at hsim
    exact hsim
  have hgF : goodSeg (maskFold (findallPH text) 1 (text.map Seg.chr)) :=
    goodSeg_maskFold _ 1 _ hg0
  rw [hmask1, findallVar_flattenSeg _ hgF]
  rw [List.dedup_map_of_injective (fun a b hab => varToken_inj hab),
    List.length_map, ← List.card_toFinset, ← List.card_toFinset]
  have hiff : ∀ j, j ∈ segToks (maskFold (findallPH text) 1 (text.map Seg.chr))
      ↔ ∃ m, m < (findallPH text).length ∧ j = 1 + m ∧
        ∀ m', m' < m →
          (findallPH text).getD m' [] ≠ (findallPH text).getD m [] := by
    intro j
    have hmain := segToks_maskFold_iff (findallPH text)
      (fun p hp => ⟨hwf p hp, hplt p hp⟩) 1 (text.map Seg.chr)
      (by
        intro k hk
        rw [segToks_map_chr] at hk
        simp at hk) j
    rw [hmain]
    constructor
    · rintro (hmem | ⟨m, hm, hj, _, hfirst⟩)
      · rw [segToks_map_chr] at hmem
        simp at hmem
      · exact ⟨m, hm, hj, hfirst⟩
    · rintro ⟨m, hm, hj, hfirst⟩
      refine Or.inr ⟨m, hm, hj, ?_, hfirst⟩
      rw [hfl0]
      have hmem : (findallPH text).getD m [] ∈ findallPH text := by
        rw [List.getD_eq_getElem _ [] hm]
        exact List.getElem_mem hm
      exact findallPH_occurs text _ hmem
  refine Finset.card_bij
    (fun j _ => (findallPH text).getD (j - 1) []) ?_ ?_ ?_
  · intro j hj
    rw [List.mem_toFinset] at hj
    obtain ⟨m, hm, hj1, _⟩ := (hiff j).mp hj
    rw [List.mem_toFinset]
    show (findallPH text).getD (j - 1) [] ∈ findallPH text
    have hj2 : j - 1 = m := by omega
    rw [hj2, List.getD_eq_getElem _ [] hm]
    exact List.getElem_mem hm
  · intro j1 hj1 j2 hj2 hEq
    rw [List.mem_toFinset] at hj1 hj2
    obtain ⟨m1, hm1, hj1e, hf1⟩ := (hiff j1).mp hj1
    obtain ⟨m2, hm2, hj2e, hf2⟩ := (hiff j2).mp hj2
    have hEq' : (findallPH text).getD (j1 - 1) []
        = (findallPH text).getD (j2 - 1) [] := hEq
    have he1 : j1 - 1 = m1 := by omega
    have he2 : j2 - 1 = m2 := by omega
    rw [he1, he2] at hEq'
    rcases Nat.lt_trichotomy m1 m2 with hlt | heq | hgt
    · exact absurd hEq' (hf2 m1 hlt)
    · omega
    · exact absurd hEq'.symm (hf1 m2 hgt)
  · intro v hv
    rw [List.mem_toFinset] at hv
    obtain ⟨m, hm, hvm, hmin⟩ := exists_min_getD hv
    have hfirstm : ∀ m', m' < m →
        (findallPH text).getD m' [] ≠ (findallPH text).getD m [] := by
      intro m' hm'
      rw [hvm]
      exact hmin m' hm'
    refine ⟨1 + m, ?_, ?_⟩
    · rw [List.mem_toFinset]
      exact (hiff (1 + m)).mpr ⟨m, hm, rfl, hfirstm⟩
    · show (findallPH text).getD (1 + m - 1) [] = v
      have hs : 1 + m - 1 = m := by omega
      rw [hs, hvm]

end Pipeline

namespace Pipeline

/-- C3 counterexample: the claim fails as stated.  (1) Round trip fails for
a text containing a literal token-like substring: masking `"{a}<VAR1>"`
replaces `{a}` by `<VAR1>`, and unmasking then replaces *both* occurrences,
yielding `"{a}{a}"`.  (2) The masked text need not contain exactly N
distinct tokens for N distinct placeholders: `"{b} {a{b}"` has two distinct
placeholder substrings, but replacing the first (`{b}`) destroys the second
(`{a{b}`), so the masked text contains a single distinct token. -/
theorem claim_C3_cex :
    restore_placeholders (mask_placeholders "{a}<VAR1>".data).1
        (mask_placeholders "{a}<VAR1>".data).2 ≠ "{a}<VAR1>".data
    ∧ (findallPH ('{' :: 'b' :: '}' :: ' ' :: '{' :: 'a' :: '{' :: 'b' :: '}'
        :: [])).dedup.length = 2
    ∧ (findallVar (mask_placeholders ('{' :: 'b' :: '}' :: ' ' :: '{' :: 'a'
        :: '{' :: 'b' :: '}' :: [])).1).dedup.length = 1 := by
  refine ⟨by decide, by decide, by decide⟩

/-- C3 (amended): for any source text containing no `<` and no `>`
character, unmasking the result of masking returns the original text
exactly; the masked text contains at most as many distinct `<VARk>` tokens
as there are placeholder matches; and when additionally no match's interior
contains a second `{` (so distinct placeholders cannot overlap), the masked
text contains *exactly* as many distinct tokens as there are distinct
placeholder matches (identical repeated placeholders collapse).  On the
repeated-placeholder example `"{a} {a} {b}"` the masked text has exactly 2
distinct tokens for 2 distinct placeholders among 3 matches. -/
theorem claim_C3 :
    (∀ text : Text, (∀ c ∈ text, c ≠ '<' ∧ c ≠ '>') →
      restore_placeholders (mask_placeholders text).1 (mask_placeholders text).2
        = text)
    ∧ (∀ text : Text, (∀ c ∈ text, c ≠ '<' ∧ c ≠ '>') →
      (findallVar (mask_placeholders text).1).dedup.length
        ≤ (findallPH text).length)
    ∧ (∀ text : Text, (∀ c ∈ text, c ≠ '<' ∧ c ≠ '>') →
        (∀ p ∈ findallPH text, ∀ c ∈ p.drop 1, c ≠ '{') →
      (findallVar (mask_placeholders text).1).dedup.length
        = (findallPH text).dedup.length)
    ∧ (findallVar (mask_placeholders "{a} {a} {b}".data).1).dedup.length = 2
    ∧ (findallPH "{a} {a} {b}".data).dedup.length = 2 := by
  refine ⟨roundtrip_of_angle_free, masked_token_count_le,
    masked_token_count_eq, by decide, by decide⟩

end Pipeline
